import Mathlib

/-!
Verification of the kiln markup-compilation core: a shallow embedding of the
directive block scanner, Pandoc attribute micro-parser, markdown helpers
(heading ids, TOC builder, image classification) and the directive pipeline,
together with proofs of the specified properties.

Strings are modelled as `List Char`; byte offsets of the Rust code become
character offsets (all structural markers are ASCII, so the arithmetic is
isomorphic).  Character classes (`char::is_whitespace`,
`char::is_alphanumeric`) are modelled by their ASCII restrictions, which
cover every character the verified properties touch.
-/

namespace Kiln

abbrev Str := List Char

/-- Rust `char::is_whitespace`, restricted to the ASCII whitespace the
scanner ever meets. -/
def isWs (c : Char) : Bool :=
  c = ' ' || c = '\t' || c = '\n' || c = '\r'

/-- Rust `str::trim_start`. -/
def trimStart (s : Str) : Str := s.dropWhile isWs

/-- Rust `str::trim`. -/
def trim (s : Str) : Str := ((s.dropWhile isWs).reverse.dropWhile isWs).reverse

/-- Rust `str::find(char::is_whitespace).unwrap_or(len)`: index of the first
whitespace character, or the length when there is none (`List.findIdx`
already returns the length in that case). -/
def findWsIdx (s : Str) : Nat := s.findIdx isWs

/-- The per-character replacement of `render.rs::escape_html`. -/
def escChar (c : Char) : Str :=
  if c = '&' then ("&amp;".toList)
  else if c = '<' then ("&lt;".toList)
  else if c = '>' then ("&gt;".toList)
  else if c = '"' then ("&quot;".toList)
  else if c = '\'' then ("&#39;".toList)
  else [c]

/-- `render.rs::escape_html`: escapes `&`, `<`, `>`, `"`, `'`. -/
def escapeHtml : Str → Str
  | [] => []
  | c :: rest => escChar c ++ escapeHtml rest

lemma escapeHtml_append (a b : Str) :
    escapeHtml (a ++ b) = escapeHtml a ++ escapeHtml b := by
  induction a with
  | nil => rfl
  | cons c rest ih => simp [escapeHtml, ih]

lemma escapeHtml_amp (r : Str) :
    escapeHtml ('&' :: r) = ("&amp;".toList) ++ escapeHtml r := rfl

lemma escapeHtml_lt (r : Str) :
    escapeHtml ('<' :: r) = ("&lt;".toList) ++ escapeHtml r := rfl

lemma escapeHtml_gt (r : Str) :
    escapeHtml ('>' :: r) = ("&gt;".toList) ++ escapeHtml r := rfl

lemma escapeHtml_quot (r : Str) :
    escapeHtml ('"' :: r) = ("&quot;".toList) ++ escapeHtml r := rfl

lemma escapeHtml_apos (r : Str) :
    escapeHtml ('\'' :: r) = ("&#39;".toList) ++ escapeHtml r := rfl

lemma escapeHtml_other (c : Char) (r : Str)
    (h1 : c ≠ '&') (h2 : c ≠ '<') (h3 : c ≠ '>') (h4 : c ≠ '"') (h5 : c ≠ '\'') :
    escapeHtml (c :: r) = c :: escapeHtml r := by
  simp [escapeHtml, escChar, h1, h2, h3, h4, h5]

lemma not_mem_escChar (x : Char) (c : Char)
    (hx : x = '<' ∨ x = '>' ∨ x = '"' ∨ x = '\'') : x ∉ escChar c := by
  unfold escChar
  rcases hx with h | h | h | h <;> subst h <;>
    (split_ifs with h1 h2 h3 h4 h5 <;> simp_all [eq_comm])

lemma not_mem_escapeHtml (x : Char) (s : Str)
    (hx : x = '<' ∨ x = '>' ∨ x = '"' ∨ x = '\'') : x ∉ escapeHtml s := by
  induction s with
  | nil => simp [escapeHtml]
  | cons c rest ih =>
    show x ∉ escChar c ++ escapeHtml rest
    intro hmem
    rcases List.mem_append.mp hmem with hl | hr
    · exact not_mem_escChar x c hx hl
    · exact ih hr

/-- C10: `escape_html` is a character-by-character transform replacing the
five HTML-special characters by their entities and passing every other
character through unchanged; `<`, `>`, `"` and `'` never survive in the
output. -/
theorem escape_html_spec :
    (escapeHtml [] = []) ∧
    (∀ r : Str, escapeHtml ('&' :: r) = ("&amp;".toList) ++ escapeHtml r) ∧
    (∀ r : Str, escapeHtml ('<' :: r) = ("&lt;".toList) ++ escapeHtml r) ∧
    (∀ r : Str, escapeHtml ('>' :: r) = ("&gt;".toList) ++ escapeHtml r) ∧
    (∀ r : Str, escapeHtml ('"' :: r) = ("&quot;".toList) ++ escapeHtml r) ∧
    (∀ r : Str, escapeHtml ('\'' :: r) = ("&#39;".toList) ++ escapeHtml r) ∧
    (∀ (c : Char) (r : Str), c ≠ '&' → c ≠ '<' → c ≠ '>' → c ≠ '"' → c ≠ '\'' →
      escapeHtml (c :: r) = c :: escapeHtml r) ∧
    (∀ s : Str, '<' ∉ escapeHtml s ∧ '>' ∉ escapeHtml s ∧
      '"' ∉ escapeHtml s ∧ '\'' ∉ escapeHtml s) := by
  refine ⟨rfl, fun r => rfl, fun r => rfl, fun r => rfl, fun r => rfl, fun r => rfl,
    fun c r h1 h2 h3 h4 h5 => escapeHtml_other c r h1 h2 h3 h4 h5,
    fun s => ⟨?_, ?_, ?_, ?_⟩⟩
  · exact not_mem_escapeHtml _ s (Or.inl rfl)
  · exact not_mem_escapeHtml _ s (Or.inr (Or.inl rfl))
  · exact not_mem_escapeHtml _ s (Or.inr (Or.inr (Or.inl rfl)))
  · exact not_mem_escapeHtml _ s (Or.inr (Or.inr (Or.inr rfl)))

/-- Witness for `escape_html_spec` at a concrete character and string. -/
theorem escape_html_spec_witness :
    escapeHtml ('x' :: ("<a>".toList)) = 'x' :: escapeHtml ("<a>".toList) :=
  (escape_html_spec.2.2.2.2.2.2.1) 'x' ("<a>".toList)
    (by decide) (by decide) (by decide) (by decide) (by decide)

/-! ## Code fence scanner (`markdown.rs`) -/

/-- `markdown.rs::strip_fence_indent`: strips up to 3 leading spaces; more
than 3 means the line is not a fence. -/
def stripFenceIndent (line : Str) : Option Str :=
  let indent := (line.takeWhile (fun b => b = ' ')).length
  if indent ≤ 3 then some (line.drop indent) else none

/-- `markdown.rs::detect_opening_code_fence`. -/
def detectOpeningCodeFence (line : Str) : Option (Char × Nat) :=
  match stripFenceIndent line with
  | none => none
  | some rest =>
    match rest.head? with
    | none => none
    | some ch =>
      if ch ≠ '`' ∧ ch ≠ '~' then none
      else
        let count := (rest.takeWhile (fun b => b = ch)).length
        if count < 3 then none
        else if ch = '`' ∧ '`' ∈ rest.drop count then none
        else some (ch, count)

/-- `markdown.rs::is_closing_code_fence`. -/
def isClosingCodeFence (line : Str) (fenceChar : Char) (minCount : Nat) : Bool :=
  match stripFenceIndent line with
  | none => false
  | some rest =>
    let count := (rest.takeWhile (fun b => b = fenceChar)).length
    decide (minCount ≤ count) && decide (trim (rest.drop count) = [])

/-! ## Pandoc attribute micro-parser (`directive.rs`) -/

/-- Loop of `directive.rs::scan_quoted_value`: walks the characters after the
opening quote, honouring `\"` and `\\` escapes; returns the offset of the
closing quote (or the length when unclosed) plus an escapes-seen flag. -/
def scanQuotedGo : Str → Nat → Bool → Nat × Bool
  | [], i, esc => (i, esc)
  | ['\\'], i, esc => (i + 1, esc)
  | '\\' :: d :: rest, i, esc =>
    if d = '"' ∨ d = '\\' then scanQuotedGo rest (i + 2) true
    else scanQuotedGo (d :: rest) (i + 1) esc
  | c :: rest, i, esc => if c = '"' then (i, esc) else scanQuotedGo rest (i + 1) esc

/-- `directive.rs::scan_quoted_value`. -/
def scanQuotedValue (s : Str) : Nat × Bool := scanQuotedGo s 0 false

/-- `directive.rs::unescape_quoted`: unescapes `\"` → `"` and `\\` → `\`;
any other backslash sequence is kept verbatim. -/
def unescapeQuoted : Str → Str
  | [] => []
  | ['\\'] => ['\\']
  | '\\' :: d :: rest =>
    if d = '"' ∨ d = '\\' then d :: unescapeQuoted rest
    else '\\' :: d :: unescapeQuoted rest
  | c :: rest => c :: unescapeQuoted rest

/-- Loop of `directive.rs::parse_attrs`, with explicit fuel standing in for
the Rust `while` loop (every iteration consumes at least one character, so
`input.length + 1` units of fuel always suffice). -/
def parseAttrsGo : Nat → Str → List (Str × Str)
  | 0, _ => []
  | fuel + 1, rest =>
    if rest = [] then []
    else if rest.head? = some '.' ∨ rest.head? = some '#' then
      parseAttrsGo fuel (trimStart (rest.drop (findWsIdx rest)))
    else
      let nextEq := rest.findIdx (fun c => c = '=')
      let nextWs := findWsIdx rest
      if nextEq < nextWs then
        let key := rest.take nextEq
        let afterEq := rest.drop (nextEq + 1)
        if afterEq.head? = some '"' then
          let afterQuote := afterEq.drop 1
          let scanned := scanQuotedValue afterQuote
          let raw := afterQuote.take scanned.1
          let value := if scanned.2 then unescapeQuoted raw else raw
          (key, value) :: parseAttrsGo fuel (trimStart (afterQuote.drop (scanned.1 + 1)))
        else
          let e := findWsIdx afterEq
          (key, afterEq.take e) :: parseAttrsGo fuel (trimStart (afterEq.drop e))
      else
        parseAttrsGo fuel (trimStart (rest.drop nextWs))

/-- `directive.rs::parse_attrs`. -/
def parseAttrs (input : Str) : List (Str × Str) :=
  parseAttrsGo (input.length + 1) (trim input)

lemma parseAttrsGo_nil (fuel : Nat) : parseAttrsGo fuel [] = [] := by
  cases fuel <;> simp [parseAttrsGo]

lemma scanQuotedGo_true_snd (s : Str) (i : Nat) : (scanQuotedGo s i true).2 = true := by
  suffices h : ∀ (s : Str) (i : Nat) (esc : Bool), esc = true →
      (scanQuotedGo s i esc).2 = true from h s i true rfl
  intro s i esc
  induction s, i, esc using scanQuotedGo.induct with
  | case1 i esc => intro h; simpa [scanQuotedGo] using h
  | case2 i esc => intro h; simpa [scanQuotedGo] using h
  | case3 d rest i esc hd ih => intro _; simp only [scanQuotedGo, if_pos hd]; exact ih rfl
  | case4 d rest i esc hd ih => intro h; simp only [scanQuotedGo, if_neg hd]; exact ih h
  | case5 rest i esc h1 h2 => intro h; simpa [scanQuotedGo] using h
  | case6 c rest i esc h1 h2 hc ih =>
    intro h
    rw [show scanQuotedGo (c :: rest) i esc = scanQuotedGo rest (i + 1) esc by
      cases rest with
      | nil =>
        cases hc' : decide (c = '\\') with
        | true => exact absurd (of_decide_eq_true hc') (fun hcc => h1 hcc rfl)
        | false =>
          have h3 : c ≠ '\\' := of_decide_eq_false hc'
          simp [scanQuotedGo, hc]
      | cons d tl =>
        cases hc' : decide (c = '\\') with
        | true => exact absurd (of_decide_eq_true hc') (fun hcc => h2 d tl hcc rfl)
        | false =>
          have h3 : c ≠ '\\' := of_decide_eq_false hc'
          simp [scanQuotedGo, hc]]
    exact ih h

lemma unescape_nonbackslash (c : Char) (r : Str) (hc : c ≠ '\\') :
    unescapeQuoted (c :: r) = c :: unescapeQuoted r := by
  cases r with
  | nil => simp [unescapeQuoted, hc]
  | cons d tl => simp [unescapeQuoted, hc]

lemma unescape_other_seq (d : Char) (r : Str) (h1 : d ≠ '"') (h2 : d ≠ '\\') :
    unescapeQuoted ('\\' :: d :: r) = '\\' :: d :: unescapeQuoted r := by
  have : ¬(d = '"' ∨ d = '\\') := by simp [h1, h2]
  simp [unescapeQuoted, this]

lemma unescape_of_scan_clean (s : Str) (i : Nat)
    (h : scanQuotedGo s i false = (i + s.length, false)) : unescapeQuoted s = s := by
  suffices key : ∀ (s : Str) (i : Nat) (esc : Bool), esc = false →
      scanQuotedGo s i esc = (i + s.length, false) → unescapeQuoted s = s from
    key s i false rfl h
  clear h i s
  intro s i esc
  induction s, i, esc using scanQuotedGo.induct with
  | case1 i esc => intro _ _; rfl
  | case2 i esc => intro _ _; rfl
  | case3 d rest i esc hd ih =>
    intro _ hscan
    exfalso
    rw [show scanQuotedGo ('\\' :: d :: rest) i esc = scanQuotedGo rest (i + 2) true by
      simp only [scanQuotedGo, if_pos hd]] at hscan
    have := scanQuotedGo_true_snd rest (i + 2)
    rw [hscan] at this
    exact Bool.false_ne_true this
  | case4 d rest i esc hd ih =>
    intro _ hscan
    rw [show scanQuotedGo ('\\' :: d :: rest) i esc = scanQuotedGo (d :: rest) (i + 1) esc by
      simp only [scanQuotedGo, if_neg hd]] at hscan
    have hd' : d ≠ '\\' := fun hc => hd (Or.inr hc)
    have hlen : scanQuotedGo (d :: rest) (i + 1) esc = ((i + 1) + (d :: rest).length, false) := by
      rw [hscan]; congr 1; simp; omega
    have := ih (by
      cases esc with
      | false => rfl
      | true =>
        exfalso
        have := scanQuotedGo_true_snd (d :: rest) (i + 1)
        rw [hscan] at this
        exact Bool.false_ne_true this) hlen
    calc unescapeQuoted ('\\' :: d :: rest)
        = '\\' :: d :: unescapeQuoted rest := unescape_other_seq d rest (fun hc => hd (Or.inl hc)) hd'
      _ = '\\' :: unescapeQuoted (d :: rest) := by rw [unescape_nonbackslash d rest hd']
      _ = '\\' :: d :: rest := by rw [this]
  | case5 rest i esc h1 h2 =>
    intro _ hscan
    exfalso
    have : scanQuotedGo ('"' :: rest) i esc = (i, esc) := by simp [scanQuotedGo]
    rw [this] at hscan
    have := congrArg Prod.fst hscan
    simp at this
  | case6 c rest i esc h1 h2 hc ih =>
    intro hesc hscan
    have hcb : c ≠ '\\' := by
      intro hcc
      cases rest with
      | nil => exact h1 hcc rfl
      | cons d tl => exact h2 d tl hcc rfl
    rw [show scanQuotedGo (c :: rest) i esc = scanQuotedGo rest (i + 1) esc by
      cases rest with
      | nil => simp [scanQuotedGo, hc]
      | cons d tl => simp [scanQuotedGo, hc]] at hscan
    have hlen : scanQuotedGo rest (i + 1) esc = ((i + 1) + rest.length, false) := by
      rw [hscan]; congr 1; simp; omega
    have := ih hesc hlen
    rw [unescape_nonbackslash c rest hcb, this]

/-- C5: quoted-value scanning unescapes exactly `\"` and `\\`, preserves any
other backslash sequence verbatim (backslash included), and when no closing
quote is found the whole remainder of the input becomes the value. -/
theorem quoted_value_escaping_spec :
    (∀ r : Str, unescapeQuoted ('\\' :: '"' :: r) = '"' :: unescapeQuoted r) ∧
    (∀ r : Str, unescapeQuoted ('\\' :: '\\' :: r) = '\\' :: unescapeQuoted r) ∧
    (∀ (d : Char) (r : Str), d ≠ '"' → d ≠ '\\' →
      unescapeQuoted ('\\' :: d :: r) = '\\' :: d :: unescapeQuoted r) ∧
    (∀ (c : Char) (r : Str), c ≠ '\\' →
      unescapeQuoted (c :: r) = c :: unescapeQuoted r) ∧
    (unescapeQuoted ['\\'] = ['\\']) ∧
    (∀ (s : Str) (fuel : Nat), (scanQuotedValue s).1 = s.length →
      parseAttrsGo (fuel + 1) ('k' :: '=' :: '"' :: s) = [(['k'], unescapeQuoted s)]) := by
  refine ⟨fun r => by simp [unescapeQuoted], fun r => by simp [unescapeQuoted],
    unescape_other_seq, unescape_nonbackslash, rfl, ?_⟩
  intro s fuel h
  have hne : ('k' :: '=' :: '"' :: s) ≠ [] := by simp
  have hWs : List.findIdx (fun c => c = '=') ('k' :: '=' :: '"' :: s) <
      findWsIdx ('k' :: '=' :: '"' :: s) := by
    simp [findWsIdx, List.findIdx_cons, isWs]
  simp only [parseAttrsGo, if_neg (by simp : ¬('k' :: '=' :: '"' :: s = [])),
    List.head?_cons]
  rw [if_neg (by decide)]
  rw [if_pos hWs]
  have hEq : List.findIdx (fun c => c = '=') ('k' :: '=' :: '"' :: s) = 1 := by
    simp [List.findIdx_cons]
  rw [hEq]
  simp only [List.take_succ_cons, List.take_zero, List.drop_succ_cons, List.drop_zero,
    List.head?_cons]
  simp only [if_true]
  have hraw : s.take (scanQuotedValue s).1 = s := by rw [h]; exact List.take_length s
  have hdropped : s.drop ((scanQuotedValue s).1 + 1) = [] :=
    List.drop_eq_nil_of_le (by omega)
  rw [hraw, hdropped]
  have htrim : trimStart ([] : Str) = [] := rfl
  rw [htrim, parseAttrsGo_nil]
  cases hb : (scanQuotedValue s).2 with
  | true => simp
  | false =>
    rw [if_neg Bool.false_ne_true]
    have hclean : scanQuotedGo s 0 false = (0 + s.length, false) := by
      have h1 : (scanQuotedGo s 0 false).1 = s.length := h
      have h2 : (scanQuotedGo s 0 false).2 = false := hb
      rw [Prod.ext_iff]
      exact ⟨by simpa using h1, by simpa using h2⟩
    rw [unescape_of_scan_clean s 0 hclean]

/-- Witness for `quoted_value_escaping_spec` on a concrete unterminated
quoted value containing a foreign escape sequence. -/
theorem quoted_value_escaping_spec_witness :
    (scanQuotedValue ('a' :: '\\' :: 'n' :: 'b' :: [])).1 = 4 ∧
    parseAttrsGo 9 ('k' :: '=' :: '"' :: 'a' :: '\\' :: 'n' :: 'b' :: []) =
      [(['k'], unescapeQuoted ('a' :: '\\' :: 'n' :: 'b' :: []))] :=
  ⟨by decide, quoted_value_escaping_spec.2.2.2.2.2
    ('a' :: '\\' :: 'n' :: 'b' :: []) 8 (by decide)⟩

/-! ## Directive kinds (`directive.rs`, `directive/callout.rs`) -/

/-- Rust `str::eq_ignore_ascii_case` (both sides ASCII-lowercased and
compared; Lean's `Char.toLower` lowercases exactly the ASCII range). -/
def eqIgnoreAsciiCase (a b : Str) : Bool :=
  a.map Char.toLower == b.map Char.toLower

/-- Modelled from the spec: the `CalloutKind` enum of the current
`directive.rs` is absent from the source snapshot (the checked-in
`directive.rs` is a stale revision whose `AdmonitionKind` carries the same
twelve variants); the spec lists the twelve callout kinds. -/
inductive CalloutKind
  | Abstract | Bug | Danger | Example | Failure | Info
  | Note | Question | Quote | Success | Tip | Warning
  deriving DecidableEq

/-- The lowercase identifier of a kind (strum `AsRefStr` with
`serialize_all = "lowercase"`). -/
def CalloutKind.asRef : CalloutKind → Str
  | .Abstract => ("abstract".toList)
  | .Bug => ("bug".toList)
  | .Danger => ("danger".toList)
  | .Example => ("example".toList)
  | .Failure => ("failure".toList)
  | .Info => ("info".toList)
  | .Note => ("note".toList)
  | .Question => ("question".toList)
  | .Quote => ("quote".toList)
  | .Success => ("success".toList)
  | .Tip => ("tip".toList)
  | .Warning => ("warning".toList)

/-- Modelled from the spec: case-insensitive `FromStr` for the callout kinds
(strum `EnumString` with `ascii_case_insensitive`). -/
def calloutKindFromStr (s : Str) : Option CalloutKind :=
  if eqIgnoreAsciiCase s ("abstract".toList) then some .Abstract
  else if eqIgnoreAsciiCase s ("bug".toList) then some .Bug
  else if eqIgnoreAsciiCase s ("danger".toList) then some .Danger
  else if eqIgnoreAsciiCase s ("example".toList) then some .Example
  else if eqIgnoreAsciiCase s ("failure".toList) then some .Failure
  else if eqIgnoreAsciiCase s ("info".toList) then some .Info
  else if eqIgnoreAsciiCase s ("note".toList) then some .Note
  else if eqIgnoreAsciiCase s ("question".toList) then some .Question
  else if eqIgnoreAsciiCase s ("quote".toList) then some .Quote
  else if eqIgnoreAsciiCase s ("success".toList) then some .Success
  else if eqIgnoreAsciiCase s ("tip".toList) then some .Tip
  else if eqIgnoreAsciiCase s ("warning".toList) then some .Warning
  else none

/-- One update step of the `callout.rs::parse_args` loop. -/
def parseArgsStep (acc : CalloutKind × Option Str × Bool) (kv : Str × Str) :
    CalloutKind × Option Str × Bool :=
  if kv.1 = ("type".toList) then
    match calloutKindFromStr kv.2 with
    | some k => (k, acc.2.1, acc.2.2)
    | none => acc
  else if kv.1 = ("title".toList) then
    (acc.1, if kv.2 ≠ [] then some kv.2 else none, acc.2.2)
  else if kv.1 = ("open".toList) then
    (acc.1, acc.2.1, !eqIgnoreAsciiCase kv.2 ("false".toList))
  else acc

/-- `callout.rs::parse_args`: folds `parse_attrs` pairs into
`(kind, title, open)` starting from `(Note, None, true)`. -/
def parseArgs (args : Str) : CalloutKind × Option Str × Bool :=
  (parseAttrs args).foldl parseArgsStep (CalloutKind.Note, none, true)

/-- `DirectiveKind` of the current `directive.rs` (per the spec's data
model; the checked-in `directive.rs` is a stale revision). -/
inductive DirectiveKind
  | Callout (kind : CalloutKind) (title : Option Str) (openFlag : Bool)
  | Unknown (name : Str) (args : Str)
  deriving DecidableEq

/-- Modelled from the spec: `DirectiveKind::from_name` of the current
`directive.rs` is absent from the source snapshot (only its callers
`parser.rs` / `pipeline.rs` and their tests are present): case-insensitive
match of `name` against `"callout"`; on match parse args via
`callout::parse_args`, otherwise `Unknown` with name and args verbatim. -/
def DirectiveKind.fromName (name args : Str) : DirectiveKind :=
  if eqIgnoreAsciiCase name ("callout".toList) then
    let p := parseArgs args
    .Callout p.1 p.2.1 p.2.2
  else .Unknown name args

/-- Number of attribute pairs carrying the given key. -/
def keyCount (k : Str) (pairs : List (Str × Str)) : Nat :=
  (pairs.filter (fun kv => kv.1 = k)).length

/-- First value bound to the given key, if any. -/
def lookupKey (k : Str) : List (Str × Str) → Option Str
  | [] => none
  | kv :: rest => if kv.1 = k then some kv.2 else lookupKey k rest

lemma keyCount_zero_lookup (k : Str) :
    ∀ pairs, keyCount k pairs = 0 → lookupKey k pairs = none := by
  intro pairs
  induction pairs with
  | nil => intro _; rfl
  | cons kv rest ih =>
    intro h
    by_cases hk : kv.1 = k
    · exfalso
      simp [keyCount, List.filter_cons, hk] at h
    · simp only [lookupKey, if_neg hk]
      apply ih
      simpa [keyCount, List.filter_cons, hk] using h

lemma keyCount_cons_ne (k : Str) (kv : Str × Str) (rest : List (Str × Str))
    (h : kv.1 ≠ k) : keyCount k (kv :: rest) = keyCount k rest := by
  simp [keyCount, List.filter_cons, h]

lemma parseArgs_foldl_char (pairs : List (Str × Str)) :
    ∀ (k : CalloutKind) (t : Option Str) (o : Bool),
      keyCount ("type".toList) pairs ≤ 1 →
      keyCount ("title".toList) pairs ≤ 1 →
      keyCount ("open".toList) pairs ≤ 1 →
      pairs.foldl parseArgsStep (k, t, o) =
        ((match lookupKey ("type".toList) pairs with
          | some v => (calloutKindFromStr v).getD k
          | none => k),
         (match lookupKey ("title".toList) pairs with
          | some v => if v ≠ [] then some v else none
          | none => t),
         (match lookupKey ("open".toList) pairs with
          | some v => !eqIgnoreAsciiCase v ("false".toList)
          | none => o)) := by
  induction pairs with
  | nil => intro k t o _ _ _; rfl
  | cons kv rest ih =>
    intro k t o hT hTi hO
    rw [List.foldl_cons]
    by_cases h1 : kv.1 = ("type".toList)
    · have hZ : keyCount ("type".toList) rest = 0 := by
        simp [keyCount, List.filter_cons, h1] at hT
        simpa [keyCount] using hT
      have hLn : lookupKey ("type".toList) rest = none := keyCount_zero_lookup _ _ hZ
      have h2 : kv.1 ≠ ("title".toList) := by rw [h1]; decide
      have h3 : kv.1 ≠ ("open".toList) := by rw [h1]; decide
      have hTi' : keyCount ("title".toList) rest ≤ 1 := by
        rwa [keyCount_cons_ne _ _ _ h2] at hTi
      have hO' : keyCount ("open".toList) rest ≤ 1 := by
        rwa [keyCount_cons_ne _ _ _ h3] at hO
      simp only [lookupKey, if_pos h1, if_neg h2, if_neg h3]
      cases hp : calloutKindFromStr kv.2 with
      | some k' =>
        have hstep : parseArgsStep (k, t, o) kv = (k', t, o) := by
          unfold parseArgsStep
          rw [if_pos h1, hp]
        rw [hstep, ih k' t o (by omega) hTi' hO', hLn]
        simp [hp]
      | none =>
        have hstep : parseArgsStep (k, t, o) kv = (k, t, o) := by
          unfold parseArgsStep
          rw [if_pos h1, hp]
        rw [hstep, ih k t o (by omega) hTi' hO', hLn]
        simp [hp]
    · by_cases h2 : kv.1 = ("title".toList)
      · have hZ : keyCount ("title".toList) rest = 0 := by
          simp [keyCount, List.filter_cons, h2] at hTi
          simpa [keyCount] using hTi
        have hLn : lookupKey ("title".toList) rest = none := keyCount_zero_lookup _ _ hZ
        have h3 : kv.1 ≠ ("open".toList) := by rw [h2]; decide
        have hT' : keyCount ("type".toList) rest ≤ 1 := by
          rwa [keyCount_cons_ne _ _ _ h1] at hT
        have hO' : keyCount ("open".toList) rest ≤ 1 := by
          rwa [keyCount_cons_ne _ _ _ h3] at hO
        simp only [lookupKey, if_pos h2, if_neg h1, if_neg h3]
        have hstep : parseArgsStep (k, t, o) kv =
            (k, if kv.2 ≠ [] then some kv.2 else none, o) := by
          unfold parseArgsStep
          rw [if_neg h1, if_pos h2]
        rw [hstep, ih k (if kv.2 ≠ [] then some kv.2 else none) o hT' (by omega) hO', hLn]
      · by_cases h3 : kv.1 = ("open".toList)
        · have hZ : keyCount ("open".toList) rest = 0 := by
            simp [keyCount, List.filter_cons, h3] at hO
            simpa [keyCount] using hO
          have hLn : lookupKey ("open".toList) rest = none := keyCount_zero_lookup _ _ hZ
          have hT' : keyCount ("type".toList) rest ≤ 1 := by
            rwa [keyCount_cons_ne _ _ _ h1] at hT
          have hTi' : keyCount ("title".toList) rest ≤ 1 := by
            rwa [keyCount_cons_ne _ _ _ h2] at hTi
          simp only [lookupKey, if_pos h3, if_neg h1, if_neg h2]
          have hstep : parseArgsStep (k, t, o) kv =
              (k, t, !eqIgnoreAsciiCase kv.2 ("false".toList)) := by
            unfold parseArgsStep
            rw [if_neg h1, if_neg h2, if_pos h3]
          rw [hstep, ih k t (!eqIgnoreAsciiCase kv.2 ("false".toList)) hT' hTi' (by omega), hLn]
        · have hT' : keyCount ("type".toList) rest ≤ 1 := by
            rwa [keyCount_cons_ne _ _ _ h1] at hT
          have hTi' : keyCount ("title".toList) rest ≤ 1 := by
            rwa [keyCount_cons_ne _ _ _ h2] at hTi
          have hO' : keyCount ("open".toList) rest ≤ 1 := by
            rwa [keyCount_cons_ne _ _ _ h3] at hO
          simp only [lookupKey, if_neg h1, if_neg h2, if_neg h3]
          have hstep : parseArgsStep (k, t, o) kv = (k, t, o) := by
            unfold parseArgsStep
            rw [if_neg h1, if_neg h2, if_neg h3]
          rw [hstep]
          exact ih k t o hT' hTi' hO'

/-- C2: the kind resolver yields a `Callout` exactly when the name matches
`"callout"` case-insensitively, with the kind taken from a `type` argument
(defaulting to `Note` when absent or unrecognised), `title` `none` when
absent or empty, and `open` false iff the `open` argument equals `"false"`
case-insensitively; any other name yields `Unknown` with name and raw args
verbatim.  The hypotheses say each recognised key occurs at most once among
the parsed attribute pairs, matching the claim's singular "the `type` /
`title` / `open` argument". -/
theorem from_name_spec (name args : Str)
    (hT : keyCount ("type".toList) (parseAttrs args) ≤ 1)
    (hTi : keyCount ("title".toList) (parseAttrs args) ≤ 1)
    (hO : keyCount ("open".toList) (parseAttrs args) ≤ 1) :
    DirectiveKind.fromName name args =
      if eqIgnoreAsciiCase name ("callout".toList) then
        DirectiveKind.Callout
          (match lookupKey ("type".toList) (parseAttrs args) with
           | some v => (calloutKindFromStr v).getD CalloutKind.Note
           | none => CalloutKind.Note)
          (match lookupKey ("title".toList) (parseAttrs args) with
           | some v => if v ≠ [] then some v else none
           | none => none)
          (match lookupKey ("open".toList) (parseAttrs args) with
           | some v => !eqIgnoreAsciiCase v ("false".toList)
           | none => true)
      else DirectiveKind.Unknown name args := by
  unfold DirectiveKind.fromName
  by_cases hc : eqIgnoreAsciiCase name ("callout".toList) = true
  · rw [if_pos hc, if_pos hc]
    have := parseArgs_foldl_char (parseAttrs args) CalloutKind.Note none true hT hTi hO
    unfold parseArgs
    rw [this]
  · rw [if_neg hc, if_neg hc]

/-- Witness for `from_name_spec` at a concrete name and argument string. -/
theorem from_name_spec_witness :
    keyCount ("type".toList) (parseAttrs ("type=TIP open=False".toList)) ≤ 1 ∧
    DirectiveKind.fromName ("Callout".toList) ("type=TIP open=False".toList) =
      if eqIgnoreAsciiCase ("Callout".toList) ("callout".toList) then
        DirectiveKind.Callout
          (match lookupKey ("type".toList) (parseAttrs ("type=TIP open=False".toList)) with
           | some v => (calloutKindFromStr v).getD CalloutKind.Note
           | none => CalloutKind.Note)
          (match lookupKey ("title".toList) (parseAttrs ("type=TIP open=False".toList)) with
           | some v => if v ≠ [] then some v else none
           | none => none)
          (match lookupKey ("open".toList) (parseAttrs ("type=TIP open=False".toList)) with
           | some v => !eqIgnoreAsciiCase v ("false".toList)
           | none => true)
      else DirectiveKind.Unknown ("Callout".toList) ("type=TIP open=False".toList) :=
  ⟨by decide, from_name_spec ("Callout".toList) ("type=TIP open=False".toList)
    (by decide) (by decide) (by decide)⟩

/-! ## Directive scanner (`directive/parser.rs`) -/

/-- `parser.rs::take_token`: the leading non-whitespace slice. -/
def takeToken (s : Str) : Str := s.take (findWsIdx s)

/-- `parser.rs::take_attr_token`: next attribute token (bare word or
`key=value`, respecting quoted values) plus the trimmed remainder. -/
def takeAttrToken (s : Str) : Str × Str :=
  let ws := findWsIdx s
  let eqIdx := s.findIdx (fun c => c = '=')
  if eqIdx < ws then
    let afterEq := s.drop (eqIdx + 1)
    if afterEq.head? = some '"' then
      let quoted := afterEq.drop 1
      let scanned := scanQuotedValue quoted
      let consumed := eqIdx + 1 + 1 + scanned.1 +
        (if scanned.1 < quoted.length then 1 else 0)
      (s.take consumed, trimStart (s.drop consumed))
    else (s.take ws, trimStart (s.drop ws))
  else (s.take ws, trimStart (s.drop ws))

/-- Parsed head of a directive opening fence (`parser.rs::DirectiveHead`). -/
structure DirectiveHead where
  name : Str
  args : Str
  id : Option Str
  classes : List Str
  deriving DecidableEq

/-- Loop of `parser.rs::parse_pandoc_attrs`, with explicit fuel standing in
for the Rust `while` loop (every iteration consumes at least one character,
so `input.length + 1` units always suffice). -/
def parsePandocGo : Nat → Str → Option Str → List Str → Str → DirectiveHead
  | 0, _, id, classes, args => ⟨[], args, id, classes⟩
  | fuel + 1, scan, id, classes, args =>
    if scan = [] then ⟨[], args, id, classes⟩
    else if scan.head? = some '#' then
      let afterHash := scan.drop 1
      let token := takeToken afterHash
      let id' := if id = none ∧ token ≠ [] then some token else id
      parsePandocGo fuel (trimStart (afterHash.drop token.length)) id' classes args
    else if scan.head? = some '.' then
      let afterDot := scan.drop 1
      let token := takeToken afterDot
      let classes' := if token ≠ [] then classes ++ [token] else classes
      parsePandocGo fuel (trimStart (afterDot.drop token.length)) id classes' args
    else
      let tr := takeAttrToken scan
      let args' := (if args ≠ [] then args ++ [' '] else args) ++ tr.1
      parsePandocGo fuel tr.2 id classes args'

/-- `parser.rs::parse_pandoc_attrs`. -/
def parsePandocAttrs (input : Str) : DirectiveHead :=
  parsePandocGo (input.length + 1) input none [] []

/-- `parser.rs::parse_directive_head`. -/
def parseDirectiveHead (text : Str) : DirectiveHead :=
  let text := trim text
  let nr : Str × Str :=
    if text.head? = some '{' then ([], text)
    else
      let pos := text.findIdx isWs
      (text.take pos, trimStart (text.drop pos))
  if nr.2.head? = some '{' ∧ nr.2.getLast? = some '}' then
    let inner := (nr.2.drop 1).dropLast
    let h := parsePandocAttrs (trim inner)
    ⟨nr.1, h.args, h.id, h.classes⟩
  else ⟨nr.1, [], none, []⟩

/-- `parser.rs::count_leading_colons`: at least 3 leading `:` at column 0. -/
def countLeadingColons (line : Str) : Option Nat :=
  let count := (line.takeWhile (fun b => b = ':')).length
  if 3 ≤ count then some count else none

/-- Rust `strip_suffix('\r').unwrap_or(raw_line)`. -/
def stripCR (s : Str) : Str :=
  if s.getLast? = some '\r' then s.dropLast else s

/-- `parser.rs::extract_body`: the text between the byte offsets with exactly
one trailing line ending stripped. -/
def extractBody (content : Str) (start e : Nat) : Str :=
  if e ≤ start then []
  else
    let body := (content.drop start).take (e - start)
    let body := if body.getLast? = some '\n' then body.dropLast else body
    if body.getLast? = some '\r' then body.dropLast else body

/-- `parser.rs::StackEntry`. -/
structure StackEntry where
  colonCount : Nat
  kind : DirectiveKind
  id : Option Str
  classes : List Str
  bodyStart : Nat
  rangeStart : Nat
  deriving DecidableEq

/-- `directive.rs::DirectiveBlock` (the current revision's shape used by
`parser.rs`: range as `rangeStart..rangeEnd`). -/
structure DirectiveBlock where
  kind : DirectiveKind
  id : Option Str
  classes : List Str
  body : Str
  rangeStart : Nat
  rangeEnd : Nat
  deriving DecidableEq

/-- The mutable state of the `parse_directives` loop. -/
structure ScanState where
  blocks : List DirectiveBlock
  stack : List StackEntry
  codeFence : Option (Char × Nat)
  offset : Nat
  deriving DecidableEq

/-- One iteration of the `parse_directives` line loop. -/
def processLine (content : Str) (st : ScanState) (rawLine : Str) : ScanState :=
  let nextOffset := min (st.offset + rawLine.length + 1) content.length
  let line := stripCR rawLine
  match st.codeFence with
  | some fc =>
    if isClosingCodeFence line fc.1 fc.2 then
      { st with codeFence := none, offset := nextOffset }
    else { st with offset := nextOffset }
  | none =>
    match detectOpeningCodeFence line with
    | some fence => { st with codeFence := some fence, offset := nextOffset }
    | none =>
      match countLeadingColons line with
      | some colonCount =>
        let afterColons := trim (line.drop colonCount)
        if afterColons = [] then
          match st.stack with
          | entry :: restStack =>
            if entry.colonCount ≤ colonCount then
              { st with
                stack := restStack
                blocks := st.blocks ++ [⟨entry.kind, entry.id, entry.classes,
                  extractBody content entry.bodyStart st.offset,
                  entry.rangeStart, nextOffset⟩]
                offset := nextOffset }
            else { st with offset := nextOffset }
          | [] => { st with offset := nextOffset }
        else
          let head := parseDirectiveHead afterColons
          { st with
            stack := ⟨colonCount, DirectiveKind.fromName head.name head.args,
              head.id, head.classes, nextOffset, st.offset⟩ :: st.stack
            offset := nextOffset }
      | none => { st with offset := nextOffset }

/-- Rust `str::split('\n')` (always at least one segment). -/
def splitNl : Str → List Str
  | [] => [[]]
  | c :: rest =>
    if c = '\n' then [] :: splitNl rest
    else
      match splitNl rest with
      | s :: ss => (c :: s) :: ss
      | [] => [[c]]

/-- Inverse of `splitNl`: rejoins the segments with `'\n'`. -/
def joinNl : List Str → Str
  | [] => []
  | [l] => l
  | l :: ls => l ++ '\n' :: joinNl ls

/-- `parser.rs::parse_directives`: scans the content line by line and
returns the closed directive blocks sorted by ascending range start
(`sort_by_key` modelled by a stable insertion sort). -/
def parseDirectives (content : Str) : List DirectiveBlock :=
  let finalState := (splitNl content).foldl (processLine content) ⟨[], [], none, 0⟩
  List.insertionSort (fun a b => a.rangeStart ≤ b.rangeStart) finalState.blocks

lemma countLeadingColons_head (line : Str) (cc : Nat)
    (h : countLeadingColons line = some cc) : line.head? = some ':' ∧ 3 ≤ cc := by
  unfold countLeadingColons at h
  by_cases h3 : 3 ≤ (line.takeWhile (fun b => b = ':')).length
  · rw [if_pos h3] at h
    obtain rfl : (line.takeWhile (fun b => b = ':')).length = cc := Option.some.inj h
    refine ⟨?_, h3⟩
    cases hl : line with
    | nil => rw [hl] at h3; simp at h3
    | cons c rest =>
      rw [hl] at h3
      by_cases hc : c = ':'
      · rw [hc]; rfl
      · rw [List.takeWhile_cons] at h3
        simp [hc] at h3
  · rw [if_neg h3] at h
    exact absurd h (by simp)

lemma detect_none_of_colon (line : Str) (h : line.head? = some ':') :
    detectOpeningCodeFence line = none := by
  cases hl : line with
  | nil => rw [hl] at h; simp at h
  | cons c rest =>
    rw [hl] at h
    obtain rfl : c = ':' := by simpa using h
    simp [detectOpeningCodeFence, stripFenceIndent, List.takeWhile_cons]

/-- C1: a column-0 line of at least three colons with nothing else on it
closes the topmost open frame exactly when that frame's opening colon count
is at most the line's colon count; otherwise (or with an empty stack) the
line closes nothing and the scan state is unchanged apart from the offset —
so a closer never reaches through an inner frame with a larger colon count.
Concretely, `::::` closes a `:::` opener while `:::` does not close a
`::::` opener, whose unclosed frame yields no block and no error. -/
theorem closing_fence_spec :
    (∀ (content : Str) (st : ScanState) (rawLine : Str) (cc : Nat),
      st.codeFence = none →
      countLeadingColons (stripCR rawLine) = some cc →
      trim ((stripCR rawLine).drop cc) = [] →
      processLine content st rawLine =
        (match st.stack with
         | entry :: restStack =>
           if entry.colonCount ≤ cc then
             { st with
               stack := restStack
               blocks := st.blocks ++ [⟨entry.kind, entry.id, entry.classes,
                 extractBody content entry.bodyStart st.offset,
                 entry.rangeStart, min (st.offset + rawLine.length + 1) content.length⟩]
               offset := min (st.offset + rawLine.length + 1) content.length }
           else { st with offset := min (st.offset + rawLine.length + 1) content.length }
         | [] => { st with offset := min (st.offset + rawLine.length + 1) content.length })) ∧
    parseDirectives ("::: callout\nBody\n::::\n".toList) =
      [⟨DirectiveKind.Callout CalloutKind.Note none true, none, [],
        ("Body".toList), 0, 22⟩] ∧
    parseDirectives (":::: callout\nBody\n:::\n".toList) = [] := by
  refine ⟨?_, by decide, by decide⟩
  intro content st rawLine cc hf hcc htrim
  obtain ⟨hhead, _⟩ := countLeadingColons_head _ _ hcc
  have hdetect := detect_none_of_colon _ hhead
  simp only [processLine, hf, hdetect, hcc]
  rw [if_pos htrim]

/-- Witness for `closing_fence_spec`: a 3-colon closer meeting a 4-colon
topmost frame leaves the stack untouched. -/
theorem closing_fence_spec_witness :
    countLeadingColons (stripCR (":::".toList)) = some 3 ∧
    processLine ("x".toList)
      ⟨[], [⟨4, DirectiveKind.Unknown [] [], none, [], 6, 0⟩], none, 8⟩ (":::".toList) =
      (match ([⟨4, DirectiveKind.Unknown [] [], none, [], 6, 0⟩] : List StackEntry) with
       | entry :: restStack =>
         if entry.colonCount ≤ 3 then
           { (⟨[], [⟨4, DirectiveKind.Unknown [] [], none, [], 6, 0⟩], none, 8⟩ : ScanState) with
             stack := restStack
             blocks := [⟨entry.kind, entry.id, entry.classes,
               extractBody ("x".toList) entry.bodyStart 8,
               entry.rangeStart, min (8 + (":::".toList).length + 1) ("x".toList).length⟩]
             offset := min (8 + (":::".toList).length + 1) ("x".toList).length }
         else { (⟨[], [⟨4, DirectiveKind.Unknown [] [], none, [], 6, 0⟩], none, 8⟩ : ScanState) with
             offset := min (8 + (":::".toList).length + 1) ("x".toList).length }
       | [] => { (⟨[], [⟨4, DirectiveKind.Unknown [] [], none, [], 6, 0⟩], none, 8⟩ : ScanState) with
             offset := min (8 + (":::".toList).length + 1) ("x".toList).length }) :=
  ⟨by decide, closing_fence_spec.1 ("x".toList)
    ⟨[], [⟨4, DirectiveKind.Unknown [] [], none, [], 6, 0⟩], none, 8⟩ (":::".toList) 3
    rfl (by decide) (by decide)⟩

/-- C3: while a code fence is open the scan never touches the directive
stack or the emitted blocks; the fence closes exactly on a line accepted by
`is_closing_code_fence`; a run of any other character never closes it; a
plain line of `i ≤ 3` spaces, `k` copies of the fence character and
trailing spaces closes a fence of `n` exactly when `i ≤ 3 ∧ n ≤ k`; and a
detected opening fence always has a backtick or tilde character, a run of
at least 3, and suppresses directive recognition on its own line too. -/
theorem code_fence_suppression_spec :
    (∀ (content : Str) (st : ScanState) (rawLine : Str) (c : Char) (n : Nat),
      st.codeFence = some (c, n) →
      processLine content st rawLine =
        (if isClosingCodeFence (stripCR rawLine) c n then
          { st with
            codeFence := none
            offset := min (st.offset + rawLine.length + 1) content.length }
        else { st with offset := min (st.offset + rawLine.length + 1) content.length })) ∧
    (∀ (m : Nat) (c c' : Char) (n : Nat), 1 ≤ n → c' ≠ c →
      isClosingCodeFence (List.replicate m c') c n = false) ∧
    (∀ (i k j : Nat) (c : Char) (n : Nat), 1 ≤ k → c ≠ ' ' →
      isClosingCodeFence
        (List.replicate i ' ' ++ List.replicate k c ++ List.replicate j ' ') c n =
      (decide (i ≤ 3) && decide (n ≤ k))) ∧
    (∀ (line : Str) (ch : Char) (n : Nat),
      detectOpeningCodeFence line = some (ch, n) → (ch = '`' ∨ ch = '~') ∧ 3 ≤ n) ∧
    (∀ (content : Str) (st : ScanState) (rawLine : Str) (fence : Char × Nat),
      st.codeFence = none →
      detectOpeningCodeFence (stripCR rawLine) = some fence →
      processLine content st rawLine =
        { st with
          codeFence := some fence
          offset := min (st.offset + rawLine.length + 1) content.length }) := by
  refine ⟨?_, ?_, ?_, ?_, ?_⟩
  · intro content st rawLine c n hf
    unfold processLine
    rw [hf]
  · intro m c c' n hn hne
    by_cases hsp : c' = ' '
    · subst hsp
      by_cases hm : m ≤ 3
      · have h1 : stripFenceIndent (List.replicate m ' ') = some [] := by
          unfold stripFenceIndent
          rw [List.takeWhile_replicate]
          simp [hm]
        unfold isClosingCodeFence
        rw [h1]
        have hn0 : ¬(n ≤ 0) := by omega
        simp [hn0]
      · have h1 : stripFenceIndent (List.replicate m ' ') = none := by
          unfold stripFenceIndent
          rw [List.takeWhile_replicate]
          simp [hm]
        unfold isClosingCodeFence
        rw [h1]
    · have h1 : stripFenceIndent (List.replicate m c') = some (List.replicate m c') := by
        unfold stripFenceIndent
        rw [List.takeWhile_replicate]
        simp [hsp]
      unfold isClosingCodeFence
      rw [h1]
      have h2 : List.takeWhile (fun b => decide (b = c)) (List.replicate m c') = [] := by
        rw [List.takeWhile_replicate]
        simp [hne]
      have hn0 : ¬(n ≤ 0) := by omega
      simp [h2, hn0]
  · intro i k j c n hk hc
    have hrep : ∀ (p : Char → Bool) (a : Char), p a = true → ∀ (i' : Nat) (t : Str),
        List.takeWhile p (List.replicate i' a ++ t) =
          List.replicate i' a ++ List.takeWhile p t := by
      intro p a hpa i' t
      induction i' with
      | zero => simp
      | succ i'' ih =>
        rw [List.replicate_succ, List.cons_append, List.takeWhile_cons, hpa]
        simp [ih, List.replicate_succ]
    have hstop : ∀ (p : Char → Bool) (t : Str),
        (∀ c0, t.head? = some c0 → p c0 = false) → List.takeWhile p t = [] := by
      intro p t h
      cases t with
      | nil => rfl
      | cons c0 r =>
        rw [List.takeWhile_cons, h c0 rfl]
        simp
    have hA : List.takeWhile (fun b => decide (b = ' '))
        (List.replicate i ' ' ++ (List.replicate k c ++ List.replicate j ' '))
        = List.replicate i ' ' := by
      rw [hrep _ ' ' (by simp) i]
      rw [hstop _ _ ?_]
      · simp
      · intro c0 hc0
        cases k with
        | zero => omega
        | succ k' =>
          rw [List.replicate_succ, List.cons_append] at hc0
          simp only [List.head?_cons, Option.some.injEq] at hc0
          subst hc0
          simpa using hc
    have hB : List.takeWhile (fun b => decide (b = c))
        (List.replicate k c ++ List.replicate j ' ') = List.replicate k c := by
      rw [hrep _ c (by simp) k]
      rw [hstop _ _ ?_]
      · simp
      · intro c0 hc0
        cases j with
        | zero => simp at hc0
        | succ j' =>
          rw [List.replicate_succ] at hc0
          simp only [List.head?_cons, Option.some.injEq] at hc0
          subst hc0
          simp only [decide_eq_false_iff_not]
          exact fun hcc => hc hcc.symm
    rw [List.append_assoc]
    unfold isClosingCodeFence stripFenceIndent
    rw [hA]
    simp only [List.length_replicate]
    by_cases hi : i ≤ 3
    · rw [if_pos hi]
      have hdrop : List.drop i (List.replicate i ' ' ++
          (List.replicate k c ++ List.replicate j ' ')) =
          List.replicate k c ++ List.replicate j ' ' := by
        have := List.drop_left (List.replicate i ' ')
          (List.replicate k c ++ List.replicate j ' ')
        simpa using this
      simp only [hdrop, hB, List.length_replicate]
      have hdrop2 : List.drop k (List.replicate k c ++ List.replicate j ' ') =
          List.replicate j ' ' := by
        have := List.drop_left (List.replicate k c) (List.replicate j ' ')
        simpa using this
      rw [hdrop2]
      have htr : trim (List.replicate j ' ') = [] := by
        unfold trim
        rw [List.dropWhile_replicate]
        simp [isWs]
      rw [htr]
      simp [hi]
    · rw [if_neg hi]
      simp [hi]
  · intro line ch n h
    unfold detectOpeningCodeFence at h
    cases hs : stripFenceIndent line with
    | none => rw [hs] at h; exact absurd h (by simp)
    | some rest =>
      rw [hs] at h
      dsimp only at h
      cases hh : rest.head? with
      | none => rw [hh] at h; exact absurd h (by simp)
      | some c0 =>
        rw [hh] at h
        dsimp only at h
        split at h
        · exact absurd h (by simp)
        · next hch =>
          split at h
          · exact absurd h (by simp)
          · next hcnt =>
            split at h
            · exact absurd h (by simp)
            · next hbt =>
              obtain ⟨h1, h2⟩ : c0 = ch ∧
                  (rest.takeWhile (fun b => b = c0)).length = n := by
                have := Option.some.inj h
                exact ⟨congrArg Prod.fst this, congrArg Prod.snd this⟩
              subst h1
              constructor
              · by_cases hbq : c0 = '`'
                · exact Or.inl hbq
                · by_cases htl : c0 = '~'
                  · exact Or.inr htl
                  · exact absurd ⟨hbq, htl⟩ hch
              · omega
  · intro content st rawLine fence hf hdet
    simp only [processLine, hf, hdet]

/-- Witness for `code_fence_suppression_spec`: inside an open backtick
fence a directive opener line changes nothing but the offset. -/
theorem code_fence_suppression_spec_witness :
    (⟨[], [], some ('`', 3), 4⟩ : ScanState).codeFence = some ('`', 3) ∧
    processLine ("abcdefghijklmnopqrst".toList) ⟨[], [], some ('`', 3), 4⟩
        ("::: callout".toList) =
      (if isClosingCodeFence (stripCR ("::: callout".toList)) '`' 3 then
        { (⟨[], [], some ('`', 3), 4⟩ : ScanState) with
          codeFence := none
          offset := min (4 + ("::: callout".toList).length + 1)
            ("abcdefghijklmnopqrst".toList).length }
      else { (⟨[], [], some ('`', 3), 4⟩ : ScanState) with
          offset := min (4 + ("::: callout".toList).length + 1)
            ("abcdefghijklmnopqrst".toList).length }) :=
  ⟨rfl, code_fence_suppression_spec.1 ("abcdefghijklmnopqrst".toList)
    ⟨[], [], some ('`', 3), 4⟩ ("::: callout".toList) '`' 3 rfl⟩

/-! ## Range ordering and nesting invariant of the scanner -/

/-- Relation between a block emitted earlier and one emitted later: either
the earlier one ends before the later one starts, or the later one strictly
contains it. -/
def emitR (b1 b2 : DirectiveBlock) : Prop :=
  b1.rangeEnd ≤ b2.rangeStart ∨
    (b2.rangeStart < b1.rangeStart ∧ b1.rangeEnd < b2.rangeEnd)

/-- Scan-state invariant: emitted blocks are well-formed and closed before
the current offset, stack frames opened before it at strictly decreasing
range starts, every emitted block lies after or inside any open frame, and
emitted blocks relate pairwise by `emitR`. -/
def InvCore (bl : List DirectiveBlock) (sk : List StackEntry) (off : Nat) : Prop :=
  (∀ b ∈ bl, b.rangeStart < b.rangeEnd ∧ b.rangeEnd ≤ off) ∧
  (∀ f ∈ sk, f.rangeStart < off) ∧
  sk.Pairwise (fun a b => b.rangeStart < a.rangeStart) ∧
  (∀ b ∈ bl, ∀ f ∈ sk, f.rangeStart < b.rangeStart ∨ b.rangeEnd ≤ f.rangeStart) ∧
  bl.Pairwise emitR

def ScanInv (st : ScanState) : Prop := InvCore st.blocks st.stack st.offset

lemma invCore_mono (bl : List DirectiveBlock) (sk : List StackEntry)
    (off off' : Nat) (h : off ≤ off') :
    InvCore bl sk off → InvCore bl sk off' := by
  rintro ⟨h1, h2, h3, h4, h5⟩
  exact ⟨fun b hb => ⟨(h1 b hb).1, le_trans (h1 b hb).2 h⟩,
    fun f hf => lt_of_lt_of_le (h2 f hf) h, h3, h4, h5⟩

lemma invCore_push (bl : List DirectiveBlock) (sk : List StackEntry)
    (off off' : Nat) (fr : StackEntry) (h : off < off') (hfr : fr.rangeStart = off) :
    InvCore bl sk off → InvCore bl (fr :: sk) off' := by
  rintro ⟨h1, h2, h3, h4, h5⟩
  refine ⟨fun b hb => ⟨(h1 b hb).1, le_trans (h1 b hb).2 (le_of_lt h)⟩, ?_, ?_, ?_, h5⟩
  · intro f hf
    rcases List.mem_cons.mp hf with rfl | hf'
    · rw [hfr]; exact h
    · exact lt_trans (h2 f hf') h
  · rw [List.pairwise_cons]
    exact ⟨fun f hf => by rw [hfr]; exact h2 f hf, h3⟩
  · intro b hb f hf
    rcases List.mem_cons.mp hf with rfl | hf'
    · right; rw [hfr]; exact (h1 b hb).2
    · exact h4 b hb f hf'

lemma invCore_pop (bl : List DirectiveBlock) (sk : List StackEntry)
    (off off' : Nat) (entry : StackEntry) (nb : DirectiveBlock)
    (h : off < off')
    (hstart : nb.rangeStart = entry.rangeStart)
    (hend : nb.rangeEnd = off') :
    InvCore bl (entry :: sk) off → InvCore (bl ++ [nb]) sk off' := by
  rintro ⟨h1, h2, h3, h4, h5⟩
  have hpc := List.pairwise_cons.mp h3
  refine ⟨?_, ?_, hpc.2, ?_, ?_⟩
  · intro b hb
    rcases List.mem_append.mp hb with hb' | hb'
    · exact ⟨(h1 b hb').1, le_trans (h1 b hb').2 (le_of_lt h)⟩
    · obtain rfl : b = nb := by simpa using hb'
      refine ⟨?_, le_of_eq hend⟩
      rw [hstart, hend]
      exact lt_trans (h2 entry (by simp)) h
  · intro f hf
    exact lt_trans (h2 f (List.mem_cons_of_mem _ hf)) h
  · intro b hb f hf
    rcases List.mem_append.mp hb with hb' | hb'
    · exact h4 b hb' f (List.mem_cons_of_mem _ hf)
    · obtain rfl : b = nb := by simpa using hb'
      left
      rw [hstart]
      exact hpc.1 f hf
  · rw [List.pairwise_append]
    refine ⟨h5, List.pairwise_singleton _ _, ?_⟩
    intro b hb b' hb'
    obtain rfl : b' = nb := by simpa using hb'
    rcases h4 b hb entry (by simp) with hlt | hle
    · right
      rw [hstart, hend]
      exact ⟨hlt, lt_of_le_of_lt (h1 b hb).2 h⟩
    · left
      rw [hstart]
      exact hle

lemma stripCR_length_le (s : Str) : (stripCR s).length ≤ s.length := by
  unfold stripCR
  split
  · rw [List.length_dropLast]; omega
  · exact le_refl _

lemma length_takeWhile_le_self (p : Char → Bool) (l : Str) :
    (l.takeWhile p).length ≤ l.length := by
  induction l with
  | nil => simp
  | cons c r ih =>
    rw [List.takeWhile_cons]
    split
    · simpa using ih
    · simp

lemma countLeadingColons_length (line : Str) (cc : Nat)
    (h : countLeadingColons line = some cc) : 3 ≤ line.length := by
  unfold countLeadingColons at h
  by_cases h3 : 3 ≤ (line.takeWhile (fun b => b = ':')).length
  · exact le_trans h3 (length_takeWhile_le_self _ _)
  · rw [if_neg h3] at h
    exact absurd h (by simp)

lemma processLine_offset (content : Str) (st : ScanState) (rawLine : Str) :
    (processLine content st rawLine).offset =
      min (st.offset + rawLine.length + 1) content.length := by
  unfold processLine
  dsimp only
  split
  · split <;> rfl
  · split
    · rfl
    · split
      · split
        · split
          · split <;> rfl
          · rfl
        · rfl
      · rfl

lemma processLine_inv (content : Str) (st : ScanState) (rawLine : Str)
    (hinv : ScanInv st) (hlen : st.offset + rawLine.length ≤ content.length) :
    ScanInv (processLine content st rawLine) := by
  have hoff_le : st.offset ≤ min (st.offset + rawLine.length + 1) content.length := by
    omega
  unfold ScanInv at hinv ⊢
  cases hf : st.codeFence with
  | some fc =>
    simp only [processLine, hf]
    split
    · exact invCore_mono _ _ _ _ hoff_le hinv
    · exact invCore_mono _ _ _ _ hoff_le hinv
  | none =>
    cases hdet : detectOpeningCodeFence (stripCR rawLine) with
    | some fence =>
      simp only [processLine, hf, hdet]
      exact invCore_mono _ _ _ _ hoff_le hinv
    | none =>
      cases hcc : countLeadingColons (stripCR rawLine) with
      | none =>
        simp only [processLine, hf, hdet, hcc]
        exact invCore_mono _ _ _ _ hoff_le hinv
      | some cc =>
        have hlen3 : 3 ≤ (stripCR rawLine).length := countLeadingColons_length _ _ hcc
        have hlen1 : 1 ≤ rawLine.length :=
          le_trans (le_trans (by omega) hlen3) (stripCR_length_le rawLine)
        have hstrict : st.offset < min (st.offset + rawLine.length + 1) content.length := by
          omega
        simp only [processLine, hf, hdet, hcc]
        by_cases htr : trim ((stripCR rawLine).drop cc) = []
        · rw [if_pos htr]
          cases hsk : st.stack with
          | nil =>
            rw [hsk] at hinv
            dsimp only
            exact invCore_mono _ _ _ _ hoff_le hinv
          | cons entry rest =>
            rw [hsk] at hinv
            dsimp only
            by_cases hcl : entry.colonCount ≤ cc
            · rw [if_pos hcl]
              dsimp only
              exact invCore_pop _ _ _ _ entry _ hstrict rfl rfl hinv
            · rw [if_neg hcl]
              dsimp only
              exact invCore_mono _ _ _ _ hoff_le hinv
        · rw [if_neg htr]
          dsimp only
          exact invCore_push _ _ _ _ _ hstrict rfl hinv

lemma splitNl_ne_nil (s : Str) : splitNl s ≠ [] := by
  cases s with
  | nil => simp [splitNl]
  | cons c rest =>
    unfold splitNl
    split
    · simp
    · split <;> simp

lemma joinNl_splitNl (s : Str) : joinNl (splitNl s) = s := by
  induction s with
  | nil => rfl
  | cons c rest ih =>
    unfold splitNl
    by_cases hc : c = '\n'
    · rw [if_pos hc]
      obtain ⟨l, ls, hls⟩ : ∃ l ls, splitNl rest = l :: ls := by
        cases h : splitNl rest with
        | nil => exact absurd h (splitNl_ne_nil rest)
        | cons l ls => exact ⟨l, ls, rfl⟩
      rw [hls]
      show joinNl ([] :: l :: ls) = c :: rest
      rw [show joinNl ([] :: l :: ls) = [] ++ '\n' :: joinNl (l :: ls) from rfl]
      rw [hls] at ih
      simp [hc, ih]
    · rw [if_neg hc]
      obtain ⟨l, ls, hls⟩ : ∃ l ls, splitNl rest = l :: ls := by
        cases h : splitNl rest with
        | nil => exact absurd h (splitNl_ne_nil rest)
        | cons l ls => exact ⟨l, ls, rfl⟩
      rw [hls]
      rw [hls] at ih
      cases ls with
      | nil =>
        show joinNl [c :: l] = c :: rest
        show c :: l = c :: rest
        have : joinNl [l] = rest := ih
        have : l = rest := this
        rw [this]
      | cons l2 ls' =>
        show joinNl ((c :: l) :: l2 :: ls') = c :: rest
        rw [show joinNl ((c :: l) :: l2 :: ls') =
          (c :: l) ++ '\n' :: joinNl (l2 :: ls') from rfl]
        have : joinNl (l :: l2 :: ls') = l ++ '\n' :: joinNl (l2 :: ls') := rfl
        rw [this] at ih
        simp [ih]

lemma foldl_scan_inv (content : Str) : ∀ (lines : List Str) (st : ScanState),
    ScanInv st → st.offset + (joinNl lines).length = content.length →
    ScanInv (lines.foldl (processLine content) st) := by
  intro lines
  induction lines with
  | nil => intro st h _; simpa using h
  | cons l ls ih =>
    intro st hinv hoff
    rw [List.foldl_cons]
    have hjoin : l.length ≤ (joinNl (l :: ls)).length := by
      cases ls with
      | nil => simp [joinNl]
      | cons l2 ls' =>
        rw [show joinNl (l :: l2 :: ls') = l ++ '\n' :: joinNl (l2 :: ls') from rfl]
        simp
    have hlen : st.offset + l.length ≤ content.length := by omega
    have hstep := processLine_inv content st l hinv hlen
    apply ih _ hstep
    rw [processLine_offset]
    cases ls with
    | nil =>
      have hj : joinNl ([l] : List Str) = l := rfl
      rw [hj] at hoff
      simp [joinNl]
      omega
    | cons l2 ls' =>
      rw [show joinNl (l :: l2 :: ls') = l ++ '\n' :: joinNl (l2 :: ls') from rfl] at hoff
      simp at hoff
      omega

instance : IsTotal DirectiveBlock (fun a b => a.rangeStart ≤ b.rangeStart) :=
  ⟨fun a b => Nat.le_total _ _⟩

instance : IsTrans DirectiveBlock (fun a b => a.rangeStart ≤ b.rangeStart) :=
  ⟨fun _ _ _ hab hbc => le_trans hab hbc⟩

/-- C4: the blocks of one scan are sorted ascending by range start, and any
two of them are either disjoint or one strictly contains the other (never
partially overlapping). -/
theorem scan_ranges_invariant (content : Str) :
    (parseDirectives content).Sorted (fun a b => a.rangeStart ≤ b.rangeStart) ∧
    (parseDirectives content).Pairwise (fun a b =>
      (a.rangeEnd ≤ b.rangeStart ∨ b.rangeEnd ≤ a.rangeStart) ∨
      (b.rangeStart < a.rangeStart ∧ a.rangeEnd < b.rangeEnd) ∨
      (a.rangeStart < b.rangeStart ∧ b.rangeEnd < a.rangeEnd)) := by
  have hinv0 : ScanInv ⟨[], [], none, 0⟩ :=
    ⟨by simp, by simp, List.Pairwise.nil, by simp, List.Pairwise.nil⟩
  have hoff0 : (⟨[], [], none, 0⟩ : ScanState).offset +
      (joinNl (splitNl content)).length = content.length := by
    rw [joinNl_splitNl]
    simp
  have hfin := foldl_scan_inv content (splitNl content) _ hinv0 hoff0
  obtain ⟨_, _, _, _, h5⟩ := hfin
  unfold parseDirectives
  constructor
  · exact List.sorted_insertionSort _ _
  · set bl := ((splitNl content).foldl (processLine content)
      ⟨[], [], none, 0⟩).blocks with hbl
    have hperm : List.Perm
        (List.insertionSort (fun a b : DirectiveBlock => a.rangeStart ≤ b.rangeStart) bl) bl :=
      List.perm_insertionSort _ _
    have hsymm : Symmetric (fun (a b : DirectiveBlock) =>
        (a.rangeEnd ≤ b.rangeStart ∨ b.rangeEnd ≤ a.rangeStart) ∨
        (b.rangeStart < a.rangeStart ∧ a.rangeEnd < b.rangeEnd) ∨
        (a.rangeStart < b.rangeStart ∧ b.rangeEnd < a.rangeEnd)) := by
      intro a b h
      rcases h with h | h | h
      · exact Or.inl h.symm
      · exact Or.inr (Or.inr h)
      · exact Or.inr (Or.inl h)
    have hS : bl.Pairwise (fun a b =>
        (a.rangeEnd ≤ b.rangeStart ∨ b.rangeEnd ≤ a.rangeStart) ∨
        (b.rangeStart < a.rangeStart ∧ a.rangeEnd < b.rangeEnd) ∨
        (a.rangeStart < b.rangeStart ∧ b.rangeEnd < a.rangeEnd)) := by
      refine h5.imp ?_
      intro a b h
      rcases h with h | h
      · exact Or.inl (Or.inl h)
      · exact Or.inr (Or.inl h)
    exact hS.perm hperm.symm (fun h => hsymm h)

/-! ## Heading ids (`render/markdown.rs`) -/

/-- Loop of `render/markdown.rs::slugify` with the running `prev_dash`
flag (Rust's Unicode `char::is_alphanumeric` is modelled by its ASCII
restriction, which covers every character these properties touch). -/
def slugifyGo : Str → Bool → Str
  | [], _ => []
  | c :: rest, prevDash =>
    if c.isAlphanum then c.toLower :: slugifyGo rest false
    else if !prevDash then '-' :: slugifyGo rest true
    else slugifyGo rest prevDash

/-- `render/markdown.rs::slugify`. -/
def slugify (text : Str) : Str :=
  let result := slugifyGo text true
  if result.getLast? = some '-' then result.dropLast else result

/-- Decimal rendering of a natural number (the `{n}` of Rust
`format!("{id}-{n}")`), with fuel bounding the division loop (`n` units
always suffice). -/
def numCharsAux : Nat → Nat → Str → Str
  | 0, _, acc => acc
  | fuel + 1, n, acc =>
    if n = 0 then acc else numCharsAux fuel (n / 10) (Nat.digitChar (n % 10) :: acc)

def numChars (n : Nat) : Str := if n = 0 then ['0'] else numCharsAux n n []

/-- The candidate id `format!("{id}-{n}")` of `deduplicate_id`. -/
def dedupCandidate (id : Str) (n : Nat) : Str := id ++ '-' :: numChars n

/-- Loop of `render/markdown.rs::deduplicate_id`, fuel standing in for the
unbounded `loop` (by pigeonhole `used.length + 1` probes always find a
fresh candidate, so that much fuel suffices and the fallback arm is
unreachable). -/
def dedupLoop (used : List Str) (id : Str) : Nat → Nat → Str
  | n, 0 => dedupCandidate id n
  | n, fuel + 1 =>
    let c := dedupCandidate id n
    if c ∈ used then dedupLoop used id (n + 1) fuel else c

/-- `render/markdown.rs::deduplicate_id`: first use of an id is kept, later
collisions probe `id-1`, `id-2`, … (the `HashSet` is modelled as the list
of ids inserted so far). -/
def dedupId (used : List Str) (id : Str) : Str × List Str :=
  if id ∈ used then
    let c := dedupLoop used id 1 (used.length + 1)
    (c, c :: used)
  else (id, id :: used)

/-- One heading as produced by the markdown parser: level, optional
explicit id, accumulated plain text. -/
structure HeadingIn where
  level : Nat
  explicitId : Option Str
  text : Str
  deriving DecidableEq

/-- `render/toc.rs::TocEntry` (heading level as its numeric value). -/
structure TocEntry where
  level : Nat
  id : Str
  title : Str
  deriving DecidableEq

/-- Loop of `render/markdown.rs::collect_headings` threading the used-id
set. -/
def collectHeadingsGo : List HeadingIn → List Str → List TocEntry
  | [], _ => []
  | h :: rest, used =>
    let rawId := h.explicitId.getD (slugify h.text)
    let rawId := if rawId = [] then ("section".toList) else rawId
    let p := dedupId used rawId
    ⟨h.level, p.1, h.text⟩ :: collectHeadingsGo rest p.2

/-- `render/markdown.rs::collect_headings`, with the pulldown-cmark event
plumbing abstracted to the list of headings it yields. -/
def collectHeadings (hs : List HeadingIn) : List TocEntry := collectHeadingsGo hs []

lemma digitChar_toNat (d : Nat) (h : d < 10) : (Nat.digitChar d).toNat = 48 + d := by
  interval_cases d <;> decide

/-- Value of a digit string, used as a left inverse of `numChars`. -/
def charsToNat (s : Str) : Nat := s.foldl (fun a c => 10 * a + (c.toNat - 48)) 0

lemma numCharsAux_value : ∀ (fuel n : Nat) (acc : Str), n ≤ fuel →
    List.foldl (fun a c => 10 * a + (c.toNat - 48)) 0 (numCharsAux fuel n acc) =
      List.foldl (fun a c => 10 * a + (c.toNat - 48)) n acc := by
  intro fuel
  induction fuel with
  | zero =>
    intro n acc h
    obtain rfl : n = 0 := by omega
    rfl
  | succ f ih =>
    intro n acc h
    by_cases hn : n = 0
    · subst hn
      simp [numCharsAux]
    · rw [show numCharsAux (f + 1) n acc =
        numCharsAux f (n / 10) (Nat.digitChar (n % 10) :: acc) by
          simp [numCharsAux, hn]]
      rw [ih (n / 10) _ (by omega)]
      rw [List.foldl_cons]
      congr 1
      rw [digitChar_toNat (n % 10) (Nat.mod_lt n (by omega))]
      omega

lemma charsToNat_numChars (n : Nat) : charsToNat (numChars n) = n := by
  unfold numChars charsToNat
  by_cases hn : n = 0
  · subst hn; decide
  · rw [if_neg hn, numCharsAux_value n n [] (le_refl n)]
    rfl

lemma numChars_inj (a b : Nat) (h : numChars a = numChars b) : a = b := by
  have := congrArg charsToNat h
  rwa [charsToNat_numChars, charsToNat_numChars] at this

lemma dedupCandidate_inj (id : Str) (a b : Nat)
    (h : dedupCandidate id a = dedupCandidate id b) : a = b := by
  unfold dedupCandidate at h
  have h2 : '-' :: numChars a = '-' :: numChars b := by
    have := List.append_cancel_left h
    exact this
  exact numChars_inj a b (List.cons.inj h2).2

lemma dedupLoop_spec (used : List Str) (id : Str) :
    ∀ (fuel n : Nat), (∃ m, n ≤ m ∧ m < n + fuel ∧ dedupCandidate id m ∉ used) →
    ∃ k, n ≤ k ∧ dedupLoop used id n fuel = dedupCandidate id k ∧
      dedupCandidate id k ∉ used ∧ ∀ j, n ≤ j → j < k → dedupCandidate id j ∈ used := by
  intro fuel
  induction fuel with
  | zero =>
    rintro n ⟨m, h1, h2, _⟩
    omega
  | succ f ih =>
    rintro n ⟨m, h1, h2, h3⟩
    by_cases hc : dedupCandidate id n ∈ used
    · have hmn : n + 1 ≤ m := by
        rcases Nat.eq_or_lt_of_le h1 with rfl | h
        · exact absurd hc h3
        · omega
      obtain ⟨k, hk1, hk2, hk3, hk4⟩ := ih (n + 1) ⟨m, hmn, by omega, h3⟩
      refine ⟨k, by omega, ?_, hk3, ?_⟩
      · simp only [dedupLoop, if_pos hc]
        exact hk2
      · intro j hj1 hj2
        rcases Nat.eq_or_lt_of_le hj1 with rfl | hlt
        · exact hc
        · exact hk4 j (by omega) hj2
    · exact ⟨n, le_refl n, by simp [dedupLoop, hc], hc,
        fun j hj1 hj2 => absurd hj2 (by omega)⟩

lemma dedup_exists_free (used : List Str) (id : Str) :
    ∃ m, 1 ≤ m ∧ m < 1 + (used.length + 1) ∧ dedupCandidate id m ∉ used := by
  by_contra hcon
  push_neg at hcon
  have hall : ∀ m, 1 ≤ m → m < used.length + 2 → dedupCandidate id m ∈ used := by
    intro m h1 h2
    exact hcon m h1 (by omega)
  have hnodup : ((List.range (used.length + 1)).map
      (fun i => dedupCandidate id (i + 1))).Nodup := by
    refine List.Nodup.map ?_ (List.nodup_range _)
    intro a b hab
    have := dedupCandidate_inj id (a + 1) (b + 1) hab
    omega
  have hsub : ∀ x ∈ (List.range (used.length + 1)).map
      (fun i => dedupCandidate id (i + 1)), x ∈ used := by
    intro x hx
    obtain ⟨i, hi, rfl⟩ := List.mem_map.mp hx
    exact hall (i + 1) (by omega) (by simpa using List.mem_range.mp hi)
  have hlenC : ((List.range (used.length + 1)).map
      (fun i => dedupCandidate id (i + 1))).length = used.length + 1 := by simp
  have hle : ((List.range (used.length + 1)).map
      (fun i => dedupCandidate id (i + 1))).length ≤ used.length := by
    have h1 : ((List.range (used.length + 1)).map
        (fun i => dedupCandidate id (i + 1))).toFinset ⊆ used.toFinset := by
      intro x hx
      exact List.mem_toFinset.mpr (hsub x (List.mem_toFinset.mp hx))
    calc ((List.range (used.length + 1)).map (fun i => dedupCandidate id (i + 1))).length
        = ((List.range (used.length + 1)).map
            (fun i => dedupCandidate id (i + 1))).toFinset.card :=
          (List.toFinset_card_of_nodup hnodup).symm
      _ ≤ used.toFinset.card := Finset.card_le_card h1
      _ ≤ used.length := used.toFinset_card_le
  omega

/-- C6: three identical `"Foo"` headings get ids `foo`, `foo-1`, `foo-2` in
document order; in general the first use of a candidate id is kept
unchanged, and a collision takes `id-k` for the least `k ≥ 1` whose
candidate is not already used (the used set also holding naturally
occurring ids). -/
theorem heading_id_dedup_spec :
    ((collectHeadings [⟨2, none, ("Foo".toList)⟩, ⟨2, none, ("Foo".toList)⟩,
        ⟨2, none, ("Foo".toList)⟩]).map (fun e => e.id) =
      [("foo".toList), ("foo-1".toList), ("foo-2".toList)]) ∧
    (∀ (used : List Str) (id : Str), id ∉ used → dedupId used id = (id, id :: used)) ∧
    (∀ (used : List Str) (id : Str), id ∈ used →
      ∃ k, 1 ≤ k ∧
        dedupId used id = (dedupCandidate id k, dedupCandidate id k :: used) ∧
        dedupCandidate id k ∉ used ∧
        ∀ j, 1 ≤ j → j < k → dedupCandidate id j ∈ used) := by
  refine ⟨by decide, ?_, ?_⟩
  · intro used id hid
    unfold dedupId
    rw [if_neg hid]
  · intro used id hid
    obtain ⟨k, hk1, hk2, hk3, hk4⟩ :=
      dedupLoop_spec used id (used.length + 1) 1 (dedup_exists_free used id)
    refine ⟨k, hk1, ?_, hk3, fun j h1 h2 => hk4 j h1 h2⟩
    unfold dedupId
    rw [if_pos hid, hk2]

/-- Witness for `heading_id_dedup_spec` at a concrete used set holding a
natural `foo-1`. -/
theorem heading_id_dedup_spec_witness :
    (("foo".toList) ∉ ([] : List Str) ∧
      dedupId [] ("foo".toList) = (("foo".toList), [("foo".toList)])) ∧
    (("foo".toList) ∈ [("foo".toList), ("foo-1".toList)] ∧
      ∃ k, 1 ≤ k ∧
        dedupId [("foo".toList), ("foo-1".toList)] ("foo".toList) =
          (dedupCandidate ("foo".toList) k,
            dedupCandidate ("foo".toList) k :: [("foo".toList), ("foo-1".toList)]) ∧
        dedupCandidate ("foo".toList) k ∉ [("foo".toList), ("foo-1".toList)] ∧
        ∀ j, 1 ≤ j → j < k →
          dedupCandidate ("foo".toList) j ∈ [("foo".toList), ("foo-1".toList)]) :=
  ⟨⟨by decide, heading_id_dedup_spec.2.1 [] ("foo".toList) (by decide)⟩,
   ⟨by decide, heading_id_dedup_spec.2.2 [("foo".toList), ("foo-1".toList)]
      ("foo".toList) (by decide)⟩⟩

/-! ## TOC builder (`render/toc.rs`) -/

/-- `toc.rs::indent`: pushes two spaces per level. -/
def indentSpaces : Nat → Str
  | 0 => []
  | l + 1 => indentSpaces l ++ ("  ".toList)

/-- The closing `while depth > target` loop of `render_toc_html`
(structural recursion on the strictly decreasing depth). -/
def closeTo (target : Nat) : Nat → Str → Str × Nat
  | 0, html => (html, 0)
  | d + 1, html =>
    if target < d + 1 then
      closeTo target d (html ++ indentSpaces ((d + 1) * 2) ++ ("</li>\n".toList)
        ++ indentSpaces ((d + 1) * 2 - 1) ++ ("</ul>\n".toList))
    else (html, d + 1)

/-- The opening `while depth < target` loop of `render_toc_html` (fuel
bounds the iterations; `target` units always suffice since the depth rises
by one per iteration). -/
def openTo (target : Nat) : Nat → Nat → Str → Str × Nat
  | 0, depth, html => (html, depth)
  | f + 1, depth, html =>
    if depth < target then
      let html1 := html ++ indentSpaces (depth * 2 + 1) ++ ("<ul>\n".toList)
      let depth1 := depth + 1
      let html2 := if depth1 < target then
          html1 ++ indentSpaces (depth1 * 2) ++ ("<li>\n".toList)
        else html1
      openTo target f depth1 html2
    else (html, depth)

/-- The body of the per-entry loop of `render_toc_html`, parameterised by
the already-computed target depth plus id and title. -/
def tocStepDepth (acc : Str × Nat) (td : Nat × Str × Str) : Str × Nat :=
  let target := td.1
  let closed :=
    if target ≤ acc.2 then
      let p := closeTo target acc.2 acc.1
      (p.1 ++ indentSpaces (p.2 * 2) ++ ("</li>\n".toList), p.2)
    else acc
  let opened := openTo target target closed.2 closed.1
  (opened.1 ++ indentSpaces (opened.2 * 2) ++ ("<li><a href=\"#".toList)
    ++ escapeHtml td.2.1 ++ ("\">".toList) ++ escapeHtml td.2.2
    ++ ("</a>\n".toList), opened.2)

/-- The per-entry loop of `render_toc_html`: target depth is the entry's
level minus the minimum level plus one. -/
def tocStep (minLevel : Nat) (acc : Str × Nat) (entry : TocEntry) : Str × Nat :=
  tocStepDepth acc (entry.level - minLevel + 1, entry.id, entry.title)

/-- `min(level)` across the entries (`unwrap_or(1)` for the empty case the
caller has already excluded). -/
def minLevelOf (entries : List TocEntry) : Nat :=
  ((entries.map (fun e => e.level)).minimum?).getD 1

/-- `toc.rs::render_toc_html`. -/
def renderTocHtml (entries : List TocEntry) : Str :=
  if entries = [] then []
  else
    let minLevel := minLevelOf entries
    let acc := entries.foldl (tocStep minLevel) (("<nav class=\"toc\">\n".toList), 0)
    let p := closeTo 0 acc.2 acc.1
    p.1 ++ ("</nav>\n".toList)

/-- The same rendering taking pre-normalized target depths. -/
def renderTocFromDepths (items : List (Nat × Str × Str)) : Str :=
  let acc := items.foldl tocStepDepth (("<nav class=\"toc\">\n".toList), 0)
  let p := closeTo 0 acc.2 acc.1
  p.1 ++ ("</nav>\n".toList)

set_option maxRecDepth 10000 in
/-- C7: the TOC builder normalises every entry's depth to
`level - min(level) + 1`, and for the out-of-order pair `[H3, H2]` the H3
entry is emitted exactly one `<ul>` level deeper than the H2 entry. -/
theorem toc_normalization_spec :
    (∀ (entries : List TocEntry), entries ≠ [] →
      renderTocHtml entries = renderTocFromDepths
        (entries.map (fun e => (e.level - minLevelOf entries + 1, e.id, e.title)))) ∧
    renderTocHtml [⟨3, ("detail".toList), ("Detail".toList)⟩,
        ⟨2, ("overview".toList), ("Overview".toList)⟩] =
      (("<nav class=\"toc\">\n  <ul>\n    <li>\n      <ul>\n        " ++
        "<li><a href=\"#detail\">Detail</a>\n        </li>\n      </ul>\n" ++
        "    </li>\n    <li><a href=\"#overview\">Overview</a>\n    </li>\n" ++
        "  </ul>\n</nav>\n").toList) := by
  constructor
  · intro entries hne
    unfold renderTocHtml renderTocFromDepths
    rw [if_neg hne]
    rw [List.foldl_map]
    rfl
  · decide

/-- Witness for `toc_normalization_spec` at a concrete singleton entry
list. -/
theorem toc_normalization_spec_witness :
    ([⟨2, ("a".toList), ("A".toList)⟩] : List TocEntry) ≠ [] ∧
    renderTocHtml [⟨2, ("a".toList), ("A".toList)⟩] = renderTocFromDepths
      (([⟨2, ("a".toList), ("A".toList)⟩] : List TocEntry).map
        (fun e => (e.level - minLevelOf [⟨2, ("a".toList), ("A".toList)⟩] + 1,
          e.id, e.title))) :=
  ⟨by decide, toc_normalization_spec.1 [⟨2, ("a".toList), ("A".toList)⟩] (by decide)⟩

/-! ## Image classification (`render/markdown.rs`, `render/image.rs`) -/

/-- The pulldown-cmark events the paragraph buffer can hold, restricted to
the constructors the image classifier inspects; every other event is
`startOther` / `endOther`. -/
inductive Ev
  | startImage (dest title : Str)
  | endImage
  | text (t : Str)
  | code (t : Str)
  | inlineMath (t : Str)
  | displayMath (t : Str)
  | softBreak
  | hardBreak
  | htmlEv (s : Str)
  | inlineHtmlEv (s : Str)
  | startOther
  | endOther
  deriving DecidableEq

/-- `markdown.rs::push_plain_text`. -/
def pushPlainText (buf : Str) (e : Ev) : Str :=
  match e with
  | .text t => buf ++ t
  | .code t => buf ++ t
  | .inlineMath t => buf ++ t
  | .displayMath t => buf ++ t
  | .softBreak => buf ++ [' ']
  | .hardBreak => buf ++ [' ']
  | _ => buf

/-- `markdown.rs::extract_alt_text`. -/
def extractAltText (events : List Ev) : Str := events.foldl pushPlainText []

/-- `image.rs::push_img_tag`. -/
def pushImgTag (src alt title : Str) : Str :=
  ("<img src=\"".toList) ++ escapeHtml src ++ ("\" alt=\"".toList) ++ escapeHtml alt
    ++ ("\"".toList)
    ++ (if title ≠ [] then (" title=\"".toList) ++ escapeHtml title ++ ("\"".toList) else [])
    ++ (" loading=\"lazy\" />".toList)

/-- `image.rs::render_block_image`. -/
def renderBlockImage (src alt title : Str) : Str :=
  ("<figure>\n".toList) ++ pushImgTag src alt title ++ ['\n']
    ++ (if alt ≠ [] then
          ("<figcaption>".toList) ++ escapeHtml alt ++ ("</figcaption>\n".toList)
        else [])
    ++ ("</figure>\n".toList)

/-- `image.rs::render_inline_image`. -/
def renderInlineImage (src alt title : Str) : Str := pushImgTag src alt title

/-- `Start(Image)` / `End(Image)` detection of `try_render_block_image`. -/
def isImageBoundary (e : Ev) : Bool :=
  match e with
  | .startImage _ _ => true
  | .endImage => true
  | _ => false

/-- `markdown.rs::try_render_block_image` (the `matches!(events.last()?,
End(Image))` test phrased as an equality on the optional last event). -/
def tryRenderBlockImage (events : List Ev) : Option Str :=
  match events with
  | .startImage dest title :: rest =>
    if rest.getLast? = some Ev.endImage then
      let inner := rest.dropLast
      if inner.any isImageBoundary then none
      else some (renderBlockImage dest (extractAltText inner) title)
    else none
  | _ => none

lemma tryRenderBlockImage_start (dest title : Str) (rest : List Ev) :
    tryRenderBlockImage (Ev.startImage dest title :: rest) =
      if rest.getLast? = some Ev.endImage then
        if rest.dropLast.any isImageBoundary then none
        else some (renderBlockImage dest (extractAltText rest.dropLast) title)
      else none := rfl

/-- `markdown.rs::transform_math`. -/
def transformMath (e : Ev) : Ev :=
  match e with
  | .inlineMath content => .inlineHtmlEv (("<span class=\"math math-inline\">\\(".toList)
      ++ escapeHtml content ++ ("\\)</span>".toList))
  | .displayMath content => .htmlEv (("<span class=\"math math-display\">\\[".toList)
      ++ escapeHtml content ++ ("\\]</span>\n".toList))
  | other => other

/-- `markdown.rs::flush_paragraph`: the index loop as recursion on the
remaining events; an image group becomes one inline `<img>` html event,
everything else passes through `transform_math`. -/
def flushParagraph : List Ev → List Ev
  | [] => []
  | .startImage dest title :: rest =>
    let inner := rest.takeWhile (fun e => !(e = Ev.endImage))
    Ev.htmlEv (renderInlineImage dest (extractAltText inner) title) ::
      flushParagraph (List.drop (inner.length + 1) rest)
  | e :: rest => transformMath e :: flushParagraph rest
termination_by events => events.length
decreasing_by
  · simp only [List.length_drop, List.length_cons]
    omega
  · simp

/-- The `End(TagEnd::Paragraph)` arm of the pass-2 transform loop: a sole
image becomes one block-image html event, otherwise the buffer is flushed
between `<p>` and `</p>`. -/
def paragraphHtmlEvents (buf : List Ev) : List Ev :=
  match tryRenderBlockImage buf with
  | some h => [Ev.htmlEv h]
  | none => Ev.htmlEv ("<p>".toList) ::
      (flushParagraph buf ++ [Ev.htmlEv ("</p>\n".toList)])

lemma drop_len_succ (l1 : List Ev) (x : Ev) (l2 : List Ev) :
    List.drop (l1.length + 1) (l1 ++ x :: l2) = l2 := by
  induction l1 with
  | nil => rfl
  | cons a r ih => simpa using ih

lemma takeWhile_until (p : Ev → Bool) (l1 : List Ev) (x : Ev) (l2 : List Ev)
    (h1 : ∀ e ∈ l1, p e = true) (h2 : p x = false) :
    List.takeWhile p (l1 ++ x :: l2) = l1 := by
  induction l1 with
  | nil => simp [List.takeWhile_cons, h2]
  | cons a r ih =>
    rw [List.cons_append, List.takeWhile_cons, h1 a (by simp)]
    simp [ih (fun e he => h1 e (by simp [he]))]

lemma flushParagraph_start (dest title : Str) (rest : List Ev) :
    flushParagraph (Ev.startImage dest title :: rest) =
      Ev.htmlEv (renderInlineImage dest
        (extractAltText (rest.takeWhile (fun e => !(e = Ev.endImage)))) title) ::
      flushParagraph
        (List.drop ((rest.takeWhile (fun e => !(e = Ev.endImage))).length + 1) rest) := by
  simp only [flushParagraph]

lemma flushParagraph_other (e : Ev) (rest : List Ev)
    (h : ∀ d t, e ≠ Ev.startImage d t) :
    flushParagraph (e :: rest) = transformMath e :: flushParagraph rest := by
  cases e <;> first
    | exact absurd rfl (h _ _)
    | simp [flushParagraph]

lemma flushParagraph_append_plain (mid : List Ev) (tail : List Ev)
    (h : ∀ e ∈ mid, isImageBoundary e = false) :
    flushParagraph (mid ++ tail) = mid.map transformMath ++ flushParagraph tail := by
  induction mid with
  | nil => simp
  | cons e r ih =>
    have he : ∀ d t, e ≠ Ev.startImage d t := by
      intro d t hdt
      have hb := h e (by simp)
      rw [hdt] at hb
      simp [isImageBoundary] at hb
    rw [List.cons_append, flushParagraph_other e _ he,
      ih (fun x hx => h x (by simp [hx]))]
    simp

lemma not_endImage_of_not_boundary (e : Ev) (h : isImageBoundary e = false) :
    (!(e = Ev.endImage)) = true := by
  cases e <;> simp_all [isImageBoundary]

/-- C8: a paragraph buffered as exactly one image renders as a `<figure>`
whose `<figcaption>` holds the plain-text alt exactly when the alt is
non-empty; a paragraph holding two images is never classified as a block
image and flushes both as plain inline `<img>` events inside `<p>…</p>`. -/
theorem block_image_classification_spec :
    (∀ (dest title : Str) (inner : List Ev),
      (∀ e ∈ inner, isImageBoundary e = false) →
      paragraphHtmlEvents (Ev.startImage dest title :: inner ++ [Ev.endImage]) =
        [Ev.htmlEv (renderBlockImage dest (extractAltText inner) title)]) ∧
    (∀ (src alt title : Str), alt ≠ [] →
      renderBlockImage src alt title =
        ("<figure>\n".toList) ++ pushImgTag src alt title ++ ['\n']
          ++ ("<figcaption>".toList) ++ escapeHtml alt ++ ("</figcaption>\n".toList)
          ++ ("</figure>\n".toList)) ∧
    (∀ (src title : Str),
      renderBlockImage src [] title =
        ("<figure>\n".toList) ++ pushImgTag src [] title ++ ['\n']
          ++ ("</figure>\n".toList)) ∧
    (∀ (d1 t1 d2 t2 : Str) (inner1 mid inner2 : List Ev),
      (∀ e ∈ inner1, isImageBoundary e = false) →
      (∀ e ∈ mid, isImageBoundary e = false) →
      (∀ e ∈ inner2, isImageBoundary e = false) →
      tryRenderBlockImage (Ev.startImage d1 t1 :: inner1 ++ [Ev.endImage] ++ mid ++
          Ev.startImage d2 t2 :: inner2 ++ [Ev.endImage]) = none ∧
      flushParagraph (Ev.startImage d1 t1 :: inner1 ++ [Ev.endImage] ++ mid ++
          Ev.startImage d2 t2 :: inner2 ++ [Ev.endImage]) =
        Ev.htmlEv (renderInlineImage d1 (extractAltText inner1) t1) ::
          (mid.map transformMath ++
            [Ev.htmlEv (renderInlineImage d2 (extractAltText inner2) t2)]) ∧
      paragraphHtmlEvents (Ev.startImage d1 t1 :: inner1 ++ [Ev.endImage] ++ mid ++
          Ev.startImage d2 t2 :: inner2 ++ [Ev.endImage]) =
        Ev.htmlEv ("<p>".toList) ::
          (flushParagraph (Ev.startImage d1 t1 :: inner1 ++ [Ev.endImage] ++ mid ++
            Ev.startImage d2 t2 :: inner2 ++ [Ev.endImage]) ++
            [Ev.htmlEv ("</p>\n".toList)])) := by
  refine ⟨?_, ?_, ?_, ?_⟩
  · intro dest title inner hin
    unfold paragraphHtmlEvents
    have htry : tryRenderBlockImage (Ev.startImage dest title :: inner ++ [Ev.endImage]) =
        some (renderBlockImage dest (extractAltText inner) title) := by
      rw [show Ev.startImage dest title :: inner ++ [Ev.endImage] =
        Ev.startImage dest title :: (inner ++ [Ev.endImage]) from rfl]
      rw [tryRenderBlockImage_start]
      rw [if_pos (by simp : (inner ++ [Ev.endImage]).getLast? = some Ev.endImage)]
      rw [show (inner ++ [Ev.endImage]).dropLast = inner from by simp]
      rw [if_neg ?_]
      intro hany
      obtain ⟨e, he, hb⟩ := List.any_eq_true.mp hany
      rw [hin e he] at hb
      exact Bool.false_ne_true hb
    rw [htry]
  · intro src alt title halt
    unfold renderBlockImage
    rw [if_pos halt]
    simp [List.append_assoc]
  · intro src title
    unfold renderBlockImage
    rw [if_neg (by simp)]
    simp [List.append_assoc]
  · intro d1 t1 d2 t2 inner1 mid inner2 h1 hm h2
    have htry : tryRenderBlockImage (Ev.startImage d1 t1 :: inner1 ++ [Ev.endImage] ++ mid ++
        Ev.startImage d2 t2 :: inner2 ++ [Ev.endImage]) = none := by
      rw [show Ev.startImage d1 t1 :: inner1 ++ [Ev.endImage] ++ mid ++
          Ev.startImage d2 t2 :: inner2 ++ [Ev.endImage] =
          Ev.startImage d1 t1 :: (inner1 ++ [Ev.endImage] ++ mid ++
            Ev.startImage d2 t2 :: inner2 ++ [Ev.endImage]) from rfl]
      rw [tryRenderBlockImage_start]
      have hre : inner1 ++ [Ev.endImage] ++ mid ++
          Ev.startImage d2 t2 :: inner2 ++ [Ev.endImage] =
          (inner1 ++ [Ev.endImage] ++ mid ++ (Ev.startImage d2 t2 :: inner2)) ++
            [Ev.endImage] := by
        simp
      rw [hre]
      rw [if_pos (List.getLast?_concat _ :
        ((inner1 ++ [Ev.endImage] ++ mid ++ (Ev.startImage d2 t2 :: inner2)) ++
          [Ev.endImage]).getLast? = some Ev.endImage)]
      rw [(List.dropLast_concat :
        ((inner1 ++ [Ev.endImage] ++ mid ++ (Ev.startImage d2 t2 :: inner2)) ++
          [Ev.endImage]).dropLast =
        inner1 ++ [Ev.endImage] ++ mid ++ (Ev.startImage d2 t2 :: inner2))]
      rw [if_pos ?_]
      refine List.any_eq_true.mpr ⟨Ev.endImage, ?_, by simp [isImageBoundary]⟩
      simp
    have hflush : flushParagraph (Ev.startImage d1 t1 :: inner1 ++ [Ev.endImage] ++ mid ++
        Ev.startImage d2 t2 :: inner2 ++ [Ev.endImage]) =
        Ev.htmlEv (renderInlineImage d1 (extractAltText inner1) t1) ::
          (mid.map transformMath ++
            [Ev.htmlEv (renderInlineImage d2 (extractAltText inner2) t2)]) := by
      have hshape : Ev.startImage d1 t1 :: inner1 ++ [Ev.endImage] ++ mid ++
          Ev.startImage d2 t2 :: inner2 ++ [Ev.endImage] =
          Ev.startImage d1 t1 ::
            (inner1 ++ Ev.endImage :: (mid ++ Ev.startImage d2 t2 ::
              (inner2 ++ [Ev.endImage]))) := by
        simp [List.append_assoc]
      rw [hshape, flushParagraph_start]
      have htw1 : (inner1 ++ Ev.endImage :: (mid ++ Ev.startImage d2 t2 ::
          (inner2 ++ [Ev.endImage]))).takeWhile (fun e => !(e = Ev.endImage)) =
          inner1 :=
        takeWhile_until _ _ _ _
          (fun e he => not_endImage_of_not_boundary e (h1 e he)) (by simp)
      rw [htw1, drop_len_succ]
      congr 1
      rw [flushParagraph_append_plain mid _ hm]
      congr 1
      rw [flushParagraph_start]
      have htw2 : (inner2 ++ [Ev.endImage]).takeWhile (fun e => !(e = Ev.endImage)) =
          inner2 := by
        have : (inner2 ++ [Ev.endImage]) = inner2 ++ Ev.endImage :: [] := by simp
        rw [this]
        exact takeWhile_until _ _ _ _
          (fun e he => not_endImage_of_not_boundary e (h2 e he)) (by simp)
      rw [htw2]
      rw [show (inner2 ++ [Ev.endImage]) = inner2 ++ Ev.endImage :: [] from by simp,
        drop_len_succ]
      rw [show flushParagraph [] = [] from by simp [flushParagraph]]
    refine ⟨htry, hflush, ?_⟩
    unfold paragraphHtmlEvents
    rw [htry]

/-- Witness for `block_image_classification_spec` at concrete single- and
two-image paragraph buffers. -/
theorem block_image_classification_spec_witness :
    ((∀ e ∈ [Ev.text ("a".toList)], isImageBoundary e = false) ∧
      paragraphHtmlEvents (Ev.startImage ("a.png".toList) [] ::
          [Ev.text ("a".toList)] ++ [Ev.endImage]) =
        [Ev.htmlEv (renderBlockImage ("a.png".toList)
          (extractAltText [Ev.text ("a".toList)]) [])]) ∧
    tryRenderBlockImage (Ev.startImage ("a.png".toList) [] ::
        [Ev.text ("a".toList)] ++ [Ev.endImage] ++ [Ev.text (" ".toList)] ++
        Ev.startImage ("b.png".toList) [] :: [Ev.text ("b".toList)] ++ [Ev.endImage]) =
      none :=
  ⟨⟨by decide, block_image_classification_spec.1 ("a.png".toList) []
      [Ev.text ("a".toList)] (by decide)⟩,
   (block_image_classification_spec.2.2.2 ("a.png".toList) [] ("b.png".toList) []
      [Ev.text ("a".toList)] [Ev.text (" ".toList)] [Ev.text ("b".toList)]
      (by decide) (by decide) (by decide)).1⟩

/-! ## Directive pipeline (`render/pipeline.rs`, `directive/callout.rs`,
`directive/div.rs`) -/

/-- `render/markdown.rs::MarkdownOutput` (html plus collected headings);
the markdown engine itself wraps the external pulldown-cmark parser and is
treated as an opaque function into this type. -/
structure MarkdownOutput where
  html : Str
  headings : List TocEntry
  deriving DecidableEq

/-- strum `Display` of a kind: titlecase of the lowercase identifier. -/
def CalloutKind.display (k : CalloutKind) : Str :=
  match k.asRef with
  | [] => []
  | c :: rest => c.toUpper :: rest

/-- `callout.rs::render_callout`. -/
def renderCallout (kind : CalloutKind) (title : Option Str) (openFlag : Bool)
    (id : Option Str) (classes : List Str) (bodyHtml : Str) : Str :=
  let displayTitle := escapeHtml (title.getD kind.display)
  let openAttr : Str := if openFlag then (" open".toList) else []
  let idAttr : Str :=
    match id with
    | some v => (" id=\"".toList) ++ escapeHtml v ++ ("\"".toList)
    | none => []
  let classVal := ("callout ".toList) ++ kind.asRef ++
    (classes.foldl (fun acc c => acc ++ [' '] ++ escapeHtml c) [])
  ("<details".toList) ++ idAttr ++ (" class=\"".toList) ++ classVal
    ++ ("\"".toList) ++ openAttr
    ++ (">\n<summary class=\"callout-title\">".toList) ++ displayTitle
    ++ ("</summary>\n<div class=\"callout-body\">".toList) ++ bodyHtml
    ++ ("</div>\n</details>\n".toList)

/-- `div.rs::render_div`. -/
def renderDiv (name : Str) (id : Option Str) (classes : List Str)
    (bodyHtml : Str) : Str :=
  if id.isSome ∨ name ≠ [] ∨ classes ≠ [] then
    let idAttr : Str :=
      match id with
      | some v => (" id=\"".toList) ++ escapeHtml v ++ ("\"".toList)
      | none => []
    let classParts := (if name ≠ [] then [escapeHtml name] else [])
      ++ classes.map escapeHtml
    let classAttr : Str :=
      if classParts = [] then []
      else (" class=\"".toList) ++ (List.intercalate [' '] classParts) ++ ("\"".toList)
    ("<div".toList) ++ idAttr ++ classAttr ++ (">".toList) ++ bodyHtml
      ++ ("</div>\n".toList)
  else bodyHtml

/-- `pipeline.rs::render_directive_block`. -/
def renderDirectiveBlock (kind : DirectiveKind) (id : Option Str)
    (classes : List Str) (bodyHtml : Str) : Str :=
  match kind with
  | .Callout k t o => renderCallout k t o id classes bodyHtml
  | .Unknown name _ => renderDiv name id classes bodyHtml

/-- `pipeline.rs::top_level_blocks`: keep a block only when it starts at or
after the end of the previously kept block. -/
def topLevelBlocks (blocks : List DirectiveBlock) : List DirectiveBlock :=
  (blocks.foldl (fun acc b =>
    if acc.2 ≤ b.rangeStart then (acc.1 ++ [b], b.rangeEnd) else acc)
    (([] : List DirectiveBlock), 0)).1

/-- Rust `String::replace_range`. -/
def replaceRange (s : Str) (a b : Nat) (repl : Str) : Str :=
  s.take a ++ repl ++ s.drop b

/-- `pipeline.rs::render_directives`, parameterised by the markdown engine
and with fuel bounding the recursion into strictly smaller block bodies
(`content.length + 1` units always suffice). -/
def renderDirectives (md : Str → MarkdownOutput) : Nat → Str → Str
  | 0, content => content
  | fuel + 1, content =>
    let allBlocks := parseDirectives content
    if allBlocks = [] then content
    else
      (topLevelBlocks allBlocks).reverse.foldl (fun result block =>
        let inner := renderDirectives md fuel block.body
        let html := renderDirectiveBlock block.kind block.id block.classes
          (md inner).html
        replaceRange result block.rangeStart block.rangeEnd
          ('\n' :: (html ++ ['\n']))) content

/-- `pipeline.rs::RenderedPage`. -/
structure RenderedPage where
  content_html : Str
  toc_html : Str
  deriving DecidableEq

/-- `pipeline.rs::render_page`. -/
def renderPage (md : Str → MarkdownOutput) (rawContent : Str) : RenderedPage :=
  let processed := renderDirectives md (rawContent.length + 1) rawContent
  let mdOutput := md processed
  ⟨mdOutput.html, renderTocHtml mdOutput.headings⟩

/-- C9: when the directive scanner finds no blocks, `render_page` feeds the
body unchanged to the markdown engine, so its `content_html` equals the
engine's html on the body itself — for every markdown engine. -/
theorem pipeline_no_directives_spec (md : Str → MarkdownOutput) (body : Str)
    (h : parseDirectives body = []) :
    (renderPage md body).content_html = (md body).html := by
  unfold renderPage
  have hid : renderDirectives md (body.length + 1) body = body := by
    simp [renderDirectives, h]
  rw [hid]

/-- Witness for `pipeline_no_directives_spec` on a directive-free body and
an engine echoing its input. -/
theorem pipeline_no_directives_spec_witness :
    parseDirectives ("hello".toList) = [] ∧
    (renderPage (fun s => ⟨s, []⟩) ("hello".toList)).content_html =
      ((fun s => (⟨s, []⟩ : MarkdownOutput)) ("hello".toList)).html :=
  ⟨by decide,
    pipeline_no_directives_spec (fun s => ⟨s, []⟩) ("hello".toList) (by decide)⟩

end Kiln
